import Mathlib

/-!
Verification of the shared-canvas server (`src/server.js`).

The JavaScript source is shallowly embedded below.  Number semantics:
JS floating-point values are modelled by an arbitrary `LinearOrderedField α`
(instantiated at `ℚ` for executable witnesses and at `ℝ` for the geometric
theorems).  The transcendental library calls that the source makes
(`Math.cos`/`Math.sin` of the sampled angle and of the rotation, and
`Math.sqrt`) are factored out as explicit function parameters `trig` and
`sqrt`, so that every definition stays computable and the structural theorems
hold for every choice of those oracles; the real-semantics instantiation is
`sqrt := Real.sqrt`, `trig := fun u => (Real.cos u', Real.sin u')`.
Timestamps (`Date.now()`) are modelled as integers.
-/

set_option maxRecDepth 100000

namespace Longdomain

section Geometry

variable {α : Type*} [LinearOrderedField α]

/-- A 2-D point `{x, y}`. -/
abbrev Pt (α : Type*) := α × α

/-- Dot product used by the projection step of `doPolygonsIntersect`
(`normal.x * p.x + normal.y * p.y`). -/
def dot (n p : Pt α) : α := n.1 * p.1 + n.2 * p.2

/-- Planar cross product (used only in the verification layer, not by the
embedded code). -/
def cross (u v : Pt α) : α := u.1 * v.2 - u.2 * v.1

/-- The edge normal computed in `doPolygonsIntersect`:
`{ x: -(p2.y - p1.y), y: p2.x - p1.x }`. -/
def edgeNormal (p1 p2 : Pt α) : Pt α := (-(p2.2 - p1.2), p2.1 - p1.1)

/-- The list of candidate separating axes contributed by one polygon: one edge
normal per vertex `j`, the edge running from `polygon[j]` to
`polygon[(j+1) % polygon.length]`. -/
def axesOf (poly : List (Pt α)) : List (Pt α) :=
  (List.range poly.length).map fun j =>
    edgeNormal (poly.getD j (0, 0)) (poly.getD ((j + 1) % poly.length) (0, 0))

/-- One step of min/max accumulation in the projection loops of
`doPolygonsIntersect` (`if (projected < minA) ...; if (projected > maxA) ...`). -/
def projStep (n : Pt α) (acc : Option (α × α)) (p : Pt α) : Option (α × α) :=
  let projected := dot n p
  match acc with
  | none => some (projected, projected)
  | some (mn, mx) => some (min mn projected, max mx projected)

/-- Projection bounds of a polygon onto an axis: the `minA`/`maxA` pair
accumulated by the inner loops of `doPolygonsIntersect`.  The source starts
from `Infinity`/`-Infinity`; that is modelled with `none` for the empty
accumulator, so `none` is returned exactly for the empty polygon. -/
def projBounds (n : Pt α) (poly : List (Pt α)) : Option (α × α) :=
  poly.foldl (projStep n) none

/-- Gap test of `doPolygonsIntersect` on one axis: `maxA < minB || maxB < minA`.
When either polygon is empty the source's `±Infinity` initial bounds make the
comparison true, hence the catch-all `true`. -/
def hasGap (n : Pt α) (a b : List (Pt α)) : Bool :=
  match projBounds n a, projBounds n b with
  | some (mnA, mxA), some (mnB, mxB) =>
    decide (mxA < mnB) || decide (mxB < mnA)
  | _, _ => true

/-- `doPolygonsIntersect(a, b)`: separating-axis test.  The source iterates
over all edges of both polygons and returns `false` as soon as one axis shows
a gap, `true` if none does. -/
def doPolygonsIntersect (a b : List (Pt α)) : Bool :=
  !((axesOf a ++ axesOf b).any fun n => hasGap n a b)

/-- `getRotatedRectCorners(cx, cy, w, h, angleDeg)` with the trigonometric
evaluation factored out: `cosA`/`sinA` stand for `Math.cos(angleRad)` and
`Math.sin(angleRad)`.  Half extents get the fixed 10-unit padding, the four
corners (TL, TR, BR, BL) are rotated about the origin and translated to
`(cx, cy)`. -/
def getRotatedRectCorners (cx cy w h cosA sinA : α) : List (Pt α) :=
  let hw := w / 2 + 10
  let hh := h / 2 + 10
  let corners : List (Pt α) := [(-hw, -hh), (hw, -hh), (hw, hh), (-hw, hh)]
  corners.map fun p => (p.1 * cosA - p.2 * sinA + cx, p.1 * sinA + p.2 * cosA + cy)

end Geometry

section Items

variable {α : Type*} [LinearOrderedField α]

/-- A placed canvas item, as built by the submit handler and persisted in
`canvas_data.json`. -/
structure CanvasItem (α : Type*) where
  text : String
  x : α
  y : α
  rotation : α
  fontSize : ℤ
  color : String
  timestamp : ℤ
deriving DecidableEq

/-- Width heuristic of `checkCollision`:
`item.text.length * (item.fontSize * 0.6)`. -/
def itemWidth (it : CanvasItem α) : α :=
  (it.text.length : α) * ((it.fontSize : α) * (6 / 10))

/-- The padded rotated bounding polygon of an item, as `checkCollision` builds
it: width from the heuristic, height = `fontSize`, rotated by the item's
rotation (whose cosine/sine pair is produced by the `trig` oracle). -/
def itemPoly (trig : α → α × α) (it : CanvasItem α) : List (Pt α) :=
  let cs := trig it.rotation
  getRotatedRectCorners it.x it.y (itemWidth it) (it.fontSize : α) cs.1 cs.2

/-- `checkCollision(newItem, existingItems)`: true iff the new item's polygon
intersects the polygon of at least one existing item. -/
def checkCollision (trig : α → α × α) (newItem : CanvasItem α)
    (existingItems : List (CanvasItem α)) : Bool :=
  existingItems.any fun item =>
    doPolygonsIntersect (itemPoly trig newItem) (itemPoly trig item)

end Items

section RateLimiter

/-- `RATE_LIMIT_WINDOW = 3 * 1000` milliseconds. -/
def RATE_LIMIT_WINDOW : ℤ := 3 * 1000

/-- `MAX_REQUESTS = 100000`. -/
def MAX_REQUESTS : ℕ := 100000

/-- `isRateLimited(ip)` acting on the timestamp list stored for one client
identity, with the ceiling and window as parameters.  It prunes timestamps
older than the window, rejects (leaving the stored list untouched, since the
source only calls `rateLimitMap.set` on the admit path) when the pruned count
reaches the ceiling, and otherwise records `now` on the pruned list. -/
def isRateLimitedWith (maxRequests : ℕ) (window now : ℤ) (stored : List ℤ) :
    Bool × List ℤ :=
  let timestamps := stored.filter fun t => decide (now - t < window)
  if maxRequests ≤ timestamps.length then (true, stored)
  else (false, timestamps ++ [now])

/-- `isRateLimited` with the source's constants. -/
def isRateLimited (now : ℤ) (stored : List ℤ) : Bool × List ℤ :=
  isRateLimitedWith MAX_REQUESTS RATE_LIMIT_WINDOW now stored

/-- Sequentially process a list of request times against the rate limiter,
returning the per-request decisions (`true` = rejected) and the final stored
list. -/
def runRequests (maxRequests : ℕ) (window : ℤ) :
    List ℤ → List ℤ → List Bool × List ℤ
  | [], stored => ([], stored)
  | t :: rest, stored =>
    let r := isRateLimitedWith maxRequests window t stored
    let next := runRequests maxRequests window rest r.2
    (r.1 :: next.1, next.2)

end RateLimiter

section ContentFilter

/-- The literal strings denoted by the denylist regex
`/((f|ph)[u@*](c|k|q)|s[h$][i1]t|b[i1]tch|wh[o0]re|c[u*]nt|n[i1]gg(er|a)|k[i1]ll|d[i1]e|su[i1]c[i1]de)/i`:
each alternative is a product of character classes, expanded here into the
finite set of lowercase literals it matches. -/
def denyList : List String :=
  (["f", "ph"].flatMap fun a => ["u", "@", "*"].flatMap fun b =>
    ["c", "k", "q"].map fun c => a ++ b ++ c)
  ++ (["h", "$"].flatMap fun a => ["i", "1"].map fun b => "s" ++ a ++ b ++ "t")
  ++ (["i", "1"].map fun a => "b" ++ a ++ "tch")
  ++ (["o", "0"].map fun a => "wh" ++ a ++ "re")
  ++ (["u", "*"].map fun a => "c" ++ a ++ "nt")
  ++ (["i", "1"].flatMap fun a => ["er", "a"].map fun b => "n" ++ a ++ "gg" ++ b)
  ++ (["i", "1"].map fun a => "k" ++ a ++ "ll")
  ++ (["i", "1"].map fun a => "d" ++ a ++ "e")
  ++ (["i", "1"].flatMap fun a => ["i", "1"].map fun b => "su" ++ a ++ "c" ++ b ++ "de")

/-- `advancedFilter.test(text)`: the regex has no anchors and the `i` flag, so
it matches iff some denylist literal occurs as a substring of the
lowercased text. -/
def advancedFilterTest (text : String) : Bool :=
  denyList.any fun w => decide (w.toList <:+: text.toList.map Char.toLower)

/-- The two rejection kinds of the submit handler's text validation. -/
inductive ContentError where
  | tooLongOrEmpty
  | profane
deriving DecidableEq

/-- The submit handler's text validation (`!text || text.length > 67` first,
then `advancedFilter.test(text)`), with `!text` holding exactly for the empty
string. -/
def contentCheck (text : String) : Option ContentError :=
  if text = "" ∨ 67 < text.length then some .tooLongOrEmpty
  else if advancedFilterTest text then some .profane
  else none

end ContentFilter

section Placement

variable {α : Type*} [LinearOrderedField α] [FloorRing α]

/-- One placement attempt's `Math.random()` draws, in the order the source
makes them: angle, radius, rotation, font size, colour. -/
structure Draw (α : Type*) where
  angleU : α
  rU : α
  rotU : α
  fontU : α
  colorU : α
deriving DecidableEq

/-- The colour palette `COLORS` of the submit handler. -/
def COLORS : List String :=
  ["#ff0000", "#008000", "#0000ff", "#800080", "#008080", "#000000",
   "#ff4500", "#8b4513"]

/-- `expansion`: zero for the first hundred attempts, then
`(attempts - 100) * 5`. -/
def expansionOf (attempts : ℕ) : α :=
  if 100 < attempts then ((attempts : α) - 100) * 5 else 0

/-- `maxRadius = 500 + (count * 10) + expansion`. -/
def maxRadiusOf (count attempts : ℕ) : α :=
  500 + (count : α) * 10 + expansionOf attempts

/-- `minRadius = Math.max(0, maxRadius - gap)` with `gap = 500`. -/
def minRadiusOf (count attempts : ℕ) : α :=
  max 0 (maxRadiusOf count attempts - 500)

/-- The candidate item built by one iteration of the placement loop.  `sqrt`
stands for `Math.sqrt` and `trig u` for
`(Math.cos(u * 2π), Math.sin(u * 2π))` applied to the angle draw. -/
def mkCandidate (sqrt : α → α) (trig : α → α × α) (text : String) (now : ℤ)
    (count attempts : ℕ) (d : Draw α) : CanvasItem α :=
  let maxR := maxRadiusOf count attempts
  let minR := minRadiusOf count attempts
  let r := sqrt (d.rU * (maxR * maxR - minR * minR) + minR * minR)
  let cs := trig d.angleU
  { text := text
    x := r * cs.1
    y := r * cs.2
    rotation := d.rotU * 140 - 70
    fontSize := ⌊d.fontU * (64 - 24 + 1 : α)⌋ + 24
    color := COLORS.getD (⌊d.colorU * (COLORS.length : α)⌋).toNat ""
    timestamp := now }

/-- The placement loop, fuelled by the remaining attempt budget.  Each
iteration builds a candidate from that attempt's draws and accepts it iff
`checkCollision` reports no collision against the snapshot. -/
def placeLoopAux (sqrt : α → α) (trig : α → α × α) (text : String) (now : ℤ)
    (snapshot : List (CanvasItem α)) (draws : ℕ → Draw α) :
    ℕ → ℕ → Option (CanvasItem α)
  | 0, _ => none
  | fuel + 1, attempts =>
    let candidate :=
      mkCandidate sqrt trig text now snapshot.length attempts (draws attempts)
    if checkCollision trig candidate snapshot then
      placeLoopAux sqrt trig text now snapshot draws fuel (attempts + 1)
    else some candidate

/-- `maxAttempts = 5000`. -/
def MAX_ATTEMPTS : ℕ := 5000

/-- The placement loop of the submit handler, starting at attempt 0 with the
full budget. -/
def placeLoop (sqrt : α → α) (trig : α → α × α) (text : String) (now : ℤ)
    (snapshot : List (CanvasItem α)) (draws : ℕ → Draw α) :
    Option (CanvasItem α) :=
  placeLoopAux sqrt trig text now snapshot draws MAX_ATTEMPTS 0

end Placement

section Submit

variable {α : Type*} [LinearOrderedField α] [FloorRing α]

/-- The replies the submit handler can send: the four error kinds
(`submit_error` messages) and the success acknowledgment carrying the item. -/
inductive SubmitReply (α : Type*) where
  | rateLimited
  | invalidText
  | profanity
  | congested
  | success (item : CanvasItem α)
deriving DecidableEq

/-- The submit branch of the message handler, for one client identity: rate
limit first, then the emptiness/length check, then the profanity filter, then
the placement loop; on success the item is appended to the snapshot and the
whole document is rewritten.  Returns the reply, the resulting persisted item
list, and the client's resulting rate-limit timestamp list. -/
def submitHandler (sqrt : α → α) (trig : α → α × α) (maxRequests : ℕ)
    (window now : ℤ) (stored : List ℤ) (text : String)
    (file : List (CanvasItem α)) (draws : ℕ → Draw α) :
    SubmitReply α × List (CanvasItem α) × List ℤ :=
  let rl := isRateLimitedWith maxRequests window now stored
  if rl.1 then (.rateLimited, file, rl.2)
  else if text = "" ∨ 67 < text.length then (.invalidText, file, rl.2)
  else if advancedFilterTest text then (.profanity, file, rl.2)
  else
    match placeLoop sqrt trig text now file draws with
    | none => (.congested, file, rl.2)
    | some item => (.success item, file ++ [item], rl.2)

/-- The payload of `GET /api/data`: the parsed persisted item list plus the
joke dataset. -/
structure ApiData (α : Type*) where
  canvas : List (CanvasItem α)
  jokes : List String

/-- `GET /api/data` reading the current persisted state. -/
def getData (file : List (CanvasItem α)) (jokes : List String) : ApiData α :=
  ⟨file, jokes⟩

end Submit

section Registry

/-- A client-reported viewport `{x, y, w, h, scale}`. -/
structure Viewport where
  x : ℚ
  y : ℚ
  w : ℚ
  h : ℚ
  scale : ℚ
deriving DecidableEq

/-- One entry of the `clients` map: the connection key (standing for the `ws`
object identity), the remote address, the random short id, and the last
reported viewport (`null` until the first report). -/
structure ConnEntry where
  key : ℕ
  ip : String
  id : String
  viewport : Option Viewport
deriving DecidableEq

/-- The broadcast messages relevant to the registry: `online_count` and
`viewports`. -/
inductive WsMessage where
  | onlineCount (count : ℕ)
  | viewports (list : List (String × Viewport))
deriving DecidableEq

/-- The viewport snapshot built by `broadcastViewports`: one `{id, ...viewport}`
record per connection with a non-null viewport. -/
def viewportList (clients : List ConnEntry) : List (String × Viewport) :=
  clients.filterMap fun c => c.viewport.map fun v => (c.id, v)

/-- The `close` handler: remove the connection from the registry, then
broadcast the online count and the viewport snapshot (both computed from the
registry after removal, and both delivered to the remaining connections).
Returns the new registry, the broadcast recipients' keys, and the broadcast
messages in order. -/
def closeHandler (k : ℕ) (clients : List ConnEntry) :
    List ConnEntry × List ℕ × List WsMessage :=
  let clients' := clients.filter fun c => c.key != k
  (clients', clients'.map (·.key),
    [.onlineCount clients'.length, .viewports (viewportList clients')])

end Registry

section RateLimiterLemmas

/-- Processing a concatenation of request batches composes. -/
theorem runRequests_append (m : ℕ) (w : ℤ) (xs ys stored : List ℤ) :
    runRequests m w (xs ++ ys) stored =
      ((runRequests m w xs stored).1
          ++ (runRequests m w ys (runRequests m w xs stored).2).1,
        (runRequests m w ys (runRequests m w xs stored).2).2) := by
  induction xs generalizing stored with
  | nil => simp [runRequests]
  | cons t rest ih => simp [runRequests, ih]

/-- A batch of mutually in-window requests that fits under the ceiling on top
of an in-window stored list is fully admitted, and the stored list ends up
extended by the batch. -/
theorem runRequests_admit_all (m : ℕ) (w : ℤ) (L : List ℤ) :
    ∀ stored : List ℤ,
      (∀ t ∈ L, ∀ s ∈ stored, t - s < w) →
      (∀ t ∈ L, ∀ s ∈ L, t - s < w) →
      stored.length + L.length ≤ m →
      runRequests m w L stored = (List.replicate L.length false, stored ++ L) := by
  induction L with
  | nil => intro stored _ _ _; simp [runRequests]
  | cons t rest ih =>
    intro stored h1 h2 hlen
    have hfilter : stored.filter (fun s => decide (t - s < w)) = stored :=
      List.filter_eq_self.mpr fun s hs => decide_eq_true (h1 t (by simp) s hs)
    have hnle : ¬ m ≤ stored.length := by
      simp only [List.length_cons] at hlen; omega
    have hstep : isRateLimitedWith m w t stored = (false, stored ++ [t]) := by
      simp [isRateLimitedWith, hfilter, hnle]
    have ih' := ih (stored ++ [t])
      (fun t' ht' s hs => by
        rcases List.mem_append.mp hs with hs | hs
        · exact h1 t' (List.mem_cons_of_mem _ ht') s hs
        · have : s = t := by simpa using hs
          exact this ▸ h2 t' (List.mem_cons_of_mem _ ht') t (List.mem_cons_self _ _))
      (fun t' ht' s hs =>
        h2 t' (List.mem_cons_of_mem _ ht') s (List.mem_cons_of_mem _ hs))
      (by simp at hlen ⊢; omega)
    simp [runRequests, hstep, ih', List.replicate_succ]

end RateLimiterLemmas

section GeometryLemmas

variable {α : Type*} [LinearOrderedField α]

/-- Folding the min/max accumulation step over a list starting from concrete
bounds yields bounds below/above the start that bound every projection, each
attained either at the start or at a list element. -/
theorem projStep_fold_spec (n : Pt α) :
    ∀ (l : List (Pt α)) (m M : α),
      ∃ m' M', l.foldl (projStep n) (some (m, M)) = some (m', M') ∧
        m' ≤ m ∧ M ≤ M' ∧ (∀ p ∈ l, m' ≤ dot n p ∧ dot n p ≤ M') ∧
        (m' = m ∨ ∃ p ∈ l, dot n p = m') ∧ (M' = M ∨ ∃ p ∈ l, dot n p = M') := by
  intro l
  induction l with
  | nil =>
    intro m M
    exact ⟨m, M, rfl, le_refl _, le_refl _, by simp, Or.inl rfl, Or.inl rfl⟩
  | cons p rest ih =>
    intro m M
    obtain ⟨m', M', heq, hm, hM, hall, hattm, hattM⟩ :=
      ih (min m (dot n p)) (max M (dot n p))
    refine ⟨m', M', ?_, le_trans hm (min_le_left _ _),
      le_trans (le_max_left _ _) hM, ?_, ?_, ?_⟩
    · simpa [projStep] using heq
    · intro q hq
      rcases List.mem_cons.mp hq with rfl | hq
      · exact ⟨le_trans hm (min_le_right _ _), le_trans (le_max_right _ _) hM⟩
      · exact hall q hq
    · rcases hattm with h | ⟨q, hq, hq2⟩
      · rcases min_choice m (dot n p) with h2 | h2
        · exact Or.inl (h.trans h2)
        · exact Or.inr ⟨p, List.mem_cons_self _ _, (h.trans h2).symm⟩
      · exact Or.inr ⟨q, List.mem_cons_of_mem _ hq, hq2⟩
    · rcases hattM with h | ⟨q, hq, hq2⟩
      · rcases max_choice M (dot n p) with h2 | h2
        · exact Or.inl (h.trans h2)
        · exact Or.inr ⟨p, List.mem_cons_self _ _, (h.trans h2).symm⟩
      · exact Or.inr ⟨q, List.mem_cons_of_mem _ hq, hq2⟩

/-- On a nonempty polygon the projection bounds exist, bound every vertex
projection, and are attained at vertices. -/
theorem projBounds_spec (n : Pt α) (p : Pt α) (rest : List (Pt α)) :
    ∃ mn mx, projBounds n (p :: rest) = some (mn, mx) ∧
      (∀ q ∈ p :: rest, mn ≤ dot n q ∧ dot n q ≤ mx) ∧
      (∃ q ∈ p :: rest, dot n q = mn) ∧ (∃ q ∈ p :: rest, dot n q = mx) := by
  obtain ⟨m', M', heq, hm, hM, hall, hattm, hattM⟩ :=
    projStep_fold_spec n rest (dot n p) (dot n p)
  refine ⟨m', M', ?_, ?_, ?_, ?_⟩
  · simpa [projBounds, projStep] using heq
  · intro q hq
    rcases List.mem_cons.mp hq with rfl | hq
    · exact ⟨hm, hM⟩
    · exact hall q hq
  · rcases hattm with h | ⟨q, hq, hq2⟩
    · exact ⟨p, List.mem_cons_self _ _, h.symm⟩
    · exact ⟨q, List.mem_cons_of_mem _ hq, hq2⟩
  · rcases hattM with h | ⟨q, hq, hq2⟩
    · exact ⟨p, List.mem_cons_self _ _, h.symm⟩
    · exact ⟨q, List.mem_cons_of_mem _ hq, hq2⟩

/-- Projection bounds are `none` only for the empty polygon. -/
theorem projBounds_eq_none (n : Pt α) {l : List (Pt α)}
    (h : projBounds n l = none) : l = [] := by
  cases l with
  | nil => rfl
  | cons p rest =>
    obtain ⟨mn, mx, heq, -, -, -⟩ := projBounds_spec n p rest
    rw [heq] at h
    cases h

/-- Unpacked form of `projBounds_spec` for a known `some` result. -/
theorem projBounds_bounds {n : Pt α} {l : List (Pt α)} {mn mx : α}
    (h : projBounds n l = some (mn, mx)) :
    (∀ q ∈ l, mn ≤ dot n q ∧ dot n q ≤ mx) ∧
      (∃ q ∈ l, dot n q = mn) ∧ (∃ q ∈ l, dot n q = mx) := by
  cases l with
  | nil => simp [projBounds] at h
  | cons p rest =>
    obtain ⟨mn', mx', heq, hall, ham, haM⟩ := projBounds_spec n p rest
    rw [heq] at h
    simp only [Option.some.injEq, Prod.mk.injEq] at h
    obtain ⟨rfl, rfl⟩ := h
    exact ⟨hall, ham, haM⟩

/-- The convex hull of a polygon's vertex set. -/
def polyHull (l : List (Pt α)) : Set (Pt α) := convexHull α {p : Pt α | p ∈ l}

/-- A slab between two level sets of a linear functional is convex. -/
theorem convex_slab (n : Pt α) (mn mx : α) :
    Convex α {x : Pt α | mn ≤ dot n x ∧ dot n x ≤ mx} := by
  intro x hx y hy s t hs ht hst
  have hd : dot n (s • x + t • y) = s * dot n x + t * dot n y := by
    simp only [dot, Prod.fst_add, Prod.snd_add, Prod.smul_fst, Prod.smul_snd,
      smul_eq_mul]
    ring
  have hmn : s * mn + t * mn = mn := by rw [← add_mul, hst, one_mul]
  have hmx : s * mx + t * mx = mx := by rw [← add_mul, hst, one_mul]
  constructor
  · have h1 : s * mn ≤ s * dot n x := mul_le_mul_of_nonneg_left hx.1 hs
    have h2 : t * mn ≤ t * dot n y := mul_le_mul_of_nonneg_left hy.1 ht
    rw [hd]
    linarith [h1, h2]
  · have h1 : s * dot n x ≤ s * mx := mul_le_mul_of_nonneg_left hx.2 hs
    have h2 : t * dot n y ≤ t * mx := mul_le_mul_of_nonneg_left hy.2 ht
    rw [hd]
    linarith [h1, h2]

/-- Every point of the hull projects inside the vertex projection bounds. -/
theorem polyHull_dot_bounds {n : Pt α} {l : List (Pt α)} {mn mx : α}
    (h : projBounds n l = some (mn, mx)) {x : Pt α} (hx : x ∈ polyHull l) :
    mn ≤ dot n x ∧ dot n x ≤ mx :=
  convexHull_min (fun p hp => (projBounds_bounds h).1 p hp)
    (convex_slab n mn mx) hx

/-- A projection gap on any axis separates the hulls: if `hasGap` holds the
two convex hulls are disjoint. -/
theorem hasGap_disjoint {n : Pt α} {a b : List (Pt α)}
    (h : hasGap n a b = true) : Disjoint (polyHull a) (polyHull b) := by
  rcases ha : projBounds n a with _ | ⟨mnA, mxA⟩
  · have hA : a = [] := projBounds_eq_none n ha
    subst hA
    have he : {p : Pt α | p ∈ ([] : List (Pt α))} = ∅ := by ext q; simp
    simp [polyHull, he]
  · rcases hb : projBounds n b with _ | ⟨mnB, mxB⟩
    · have hB : b = [] := projBounds_eq_none n hb
      subst hB
      have he : {p : Pt α | p ∈ ([] : List (Pt α))} = ∅ := by ext q; simp
      simp [polyHull, he]
    · unfold hasGap at h
      rw [ha, hb] at h
      simp only [Bool.or_eq_true, decide_eq_true_eq] at h
      rw [Set.disjoint_left]
      intro x hxa hxb
      have bA := polyHull_dot_bounds ha hxa
      have bB := polyHull_dot_bounds hb hxb
      rcases h with h | h <;> linarith [bA.1, bA.2, bB.1, bB.2]

/-- The separating-axis test returns `false` exactly when some edge normal of
either polygon exhibits a projection gap. -/
theorem doPolygonsIntersect_eq_false_iff (a b : List (Pt α)) :
    doPolygonsIntersect a b = false ↔
      ∃ n ∈ axesOf a ++ axesOf b, hasGap n a b = true := by
  rw [doPolygonsIntersect, Bool.not_eq_false']
  exact List.any_eq_true

end GeometryLemmas

section ClaimsBasic

/-- C4.  The rate limiter first prunes timestamps older than the window,
rejects when the pruned count is at or above the ceiling, and otherwise admits
and records the new timestamp; consequently, starting from a fresh identity,
the `(C+1)`-th of `C+1` requests lying inside one window is rejected while the
first `C` are admitted, and a request arriving at least a full window after
every recorded timestamp is admitted. -/
theorem c4_rate_limiter (C : ℕ) (w : ℤ) :
    (∀ now stored,
        isRateLimitedWith C w now stored =
          (if C ≤ (stored.filter fun t => decide (now - t < w)).length
            then (true, stored)
            else (false, (stored.filter fun t => decide (now - t < w)) ++ [now]))) ∧
    (∀ L : List ℤ, L.length = C + 1 → (∀ a ∈ L, ∀ b ∈ L, a - b < w) →
        (runRequests C w L []).1 = List.replicate C false ++ [true]) ∧
    (∀ (now : ℤ) (ts : List ℤ), 0 < C → (∀ t ∈ ts, w ≤ now - t) →
        isRateLimitedWith C w now ts = (false, [now])) := by
  refine ⟨fun now stored => rfl, ?_, ?_⟩
  · intro L hlen hwin
    have hne : L ≠ [] := by intro h; rw [h] at hlen; simp at hlen
    have hdecomp := List.dropLast_append_getLast hne
    have hlast : L.getLast hne ∈ L := List.getLast_mem hne
    have hsub : L.dropLast ⊆ L := by
      conv_rhs => rw [← hdecomp]
      exact List.subset_append_left _ _
    have hlen' : L.dropLast.length = C := by
      rw [List.length_dropLast, hlen]; rfl
    have hfirst : runRequests C w L.dropLast [] =
        (List.replicate C false, L.dropLast) := by
      have := runRequests_admit_all C w L.dropLast []
        (fun t _ s hs => absurd hs (List.not_mem_nil s))
        (fun t ht s hs => hwin t (hsub ht) s (hsub hs))
        (by simp [hlen'])
      simpa [hlen'] using this
    have hkeep : L.dropLast.filter
        (fun s => decide (L.getLast hne - s < w)) = L.dropLast :=
      List.filter_eq_self.mpr fun s hs =>
        decide_eq_true (hwin _ hlast s (hsub hs))
    have hstep : isRateLimitedWith C w (L.getLast hne) L.dropLast =
        (true, L.dropLast) := by
      simp [isRateLimitedWith, hkeep, hlen']
    conv_lhs => rw [← hdecomp]
    rw [runRequests_append, hfirst]
    simp [runRequests, hstep]
  · intro now ts hC hold
    have hfilter : ts.filter (fun t => decide (now - t < w)) = [] :=
      List.filter_eq_nil_iff.mpr fun t ht => by
        simp only [decide_eq_true_eq, not_lt]
        exact hold t ht
    simp [isRateLimitedWith, hfilter, Nat.not_le_of_lt hC]

/-- C4 witness: with ceiling 2 and window 3000, three requests at times
0, 1, 2 yield admit, admit, reject, and a later request at time 5000 against
a stored timestamp 0 is admitted afresh. -/
theorem c4_rate_limiter_witness :
    (([0, 1, 2] : List ℤ).length = 2 + 1) ∧
    (runRequests 2 3000 [0, 1, 2] []).1 = List.replicate 2 false ++ [true] ∧
    isRateLimitedWith 2 3000 5000 [0] = (false, [5000]) :=
  ⟨rfl,
    (c4_rate_limiter 2 3000).2.1 [0, 1, 2] rfl (by decide),
    (c4_rate_limiter 2 3000).2.2 5000 [0] (by decide) (by decide)⟩

/-- C5 (amended: the code rejects only the genuinely empty string, not
whitespace-only text — there is no trim).  The content check rejects empty
text and text longer than 67 characters with the invalid-text error, accepts
a 67-character text matching no denylist pattern, and the denylist match is
case-insensitive (it depends only on the lowercased text). -/
theorem c5_content_check :
    (contentCheck "" = some ContentError.tooLongOrEmpty) ∧
    (∀ t : String, 67 < t.length → contentCheck t = some ContentError.tooLongOrEmpty) ∧
    (∀ t : String, t.length = 67 → advancedFilterTest t = false →
      contentCheck t = none) ∧
    (∀ s t : String, s.toList.map Char.toLower = t.toList.map Char.toLower →
      advancedFilterTest s = advancedFilterTest t) := by
  refine ⟨rfl, ?_, ?_, ?_⟩
  · intro t ht
    unfold contentCheck
    rw [if_pos (Or.inr ht)]
  · intro t hlen hfilt
    have hne : ¬(t = "" ∨ 67 < t.length) := by
      rintro (rfl | h)
      · simp at hlen
      · omega
    unfold contentCheck
    rw [if_neg hne, if_neg (by simp [hfilt])]
  · intro s t h
    unfold advancedFilterTest
    simp only [h]

/-- C5 counterexample: the whitespace-only text `" "` passes the content check
unrejected (the claim states it is rejected with the invalid-text error); the
source tests `!text`, which only the empty string satisfies, and never trims. -/
theorem c5_counterexample : contentCheck " " = none := by decide

/-- C5 witness: a 67-character non-matching text is accepted, and the
mixed-case `"KiLL"` is classified exactly like its lowercase form. -/
theorem c5_content_check_witness :
    ("aaaaaaaaaaaaaaaaaaaaaaaaaaaaaaaaaaaaaaaaaaaaaaaaaaaaaaaaaaaaaaaaaaa" : String).length = 67 ∧
    advancedFilterTest "aaaaaaaaaaaaaaaaaaaaaaaaaaaaaaaaaaaaaaaaaaaaaaaaaaaaaaaaaaaaaaaaaaa" = false ∧
    contentCheck "aaaaaaaaaaaaaaaaaaaaaaaaaaaaaaaaaaaaaaaaaaaaaaaaaaaaaaaaaaaaaaaaaaa" = none ∧
    advancedFilterTest "KiLL" = advancedFilterTest "kill" :=
  ⟨by decide, by decide,
    c5_content_check.2.2.1 _ (by decide) (by decide),
    c5_content_check.2.2.2 "KiLL" "kill" (by decide)⟩

/-- C6.  For a submission that is not rate limited, whose text is both longer
than 67 characters and matches the denylist, the reply is the invalid-text
(length) error, not the profanity error: the emptiness/length check runs
before the pattern filter. -/
theorem c6_length_before_profanity {α : Type*} [LinearOrderedField α]
    [FloorRing α] (sqrt : α → α) (trig : α → α × α) (maxRequests : ℕ)
    (window now : ℤ) (stored : List ℤ) (text : String)
    (file : List (CanvasItem α)) (draws : ℕ → Draw α)
    (hrl : (stored.filter fun t => decide (now - t < window)).length < maxRequests)
    (hlen : 67 < text.length) (hprof : advancedFilterTest text = true) :
    (submitHandler sqrt trig maxRequests window now stored text file draws).1 =
      SubmitReply.invalidText := by
  have h1 : (isRateLimitedWith maxRequests window now stored).1 = false := by
    simp [isRateLimitedWith, Nat.not_le_of_lt hrl]
  simp [submitHandler, h1, hlen]

/-- C6 witness: a concrete 68-character profane submission is answered with
the invalid-text error. -/
theorem c6_length_before_profanity_witness :
    ((([] : List ℤ).filter fun t => decide ((0 : ℤ) - t < 3000)).length < 100000) ∧
    (67 < ("fuckaaaaaaaaaaaaaaaaaaaaaaaaaaaaaaaaaaaaaaaaaaaaaaaaaaaaaaaaaaaaaaaa" : String).length) ∧
    advancedFilterTest "fuckaaaaaaaaaaaaaaaaaaaaaaaaaaaaaaaaaaaaaaaaaaaaaaaaaaaaaaaaaaaaaaaa" = true ∧
    (submitHandler (α := ℚ) id (fun _ => (1, 0)) 100000 3000 0 []
        "fuckaaaaaaaaaaaaaaaaaaaaaaaaaaaaaaaaaaaaaaaaaaaaaaaaaaaaaaaaaaaaaaaa" []
        fun _ => ⟨0, 0, 0, 0, 0⟩).1 = SubmitReply.invalidText :=
  ⟨by decide, by decide, by decide,
    c6_length_before_profanity id (fun _ => (1, 0)) 100000 3000 0 [] _ [] _
      (by decide) (by decide) (by decide)⟩

/-- C7.  Every submission answered with one of the four error replies
(rate-limited, invalid-text, profanity, congested) leaves the persisted item
list unchanged: no item is appended and no snapshot write happens on an error
path. -/
theorem c7_errors_preserve_store {α : Type*} [LinearOrderedField α]
    [FloorRing α] (sqrt : α → α) (trig : α → α × α) (maxRequests : ℕ)
    (window now : ℤ) (stored : List ℤ) (text : String)
    (file : List (CanvasItem α)) (draws : ℕ → Draw α) (r : SubmitReply α)
    (file' : List (CanvasItem α)) (ts' : List ℤ)
    (h : submitHandler sqrt trig maxRequests window now stored text file draws =
      (r, file', ts'))
    (hr : r = SubmitReply.rateLimited ∨ r = SubmitReply.invalidText ∨
      r = SubmitReply.profanity ∨ r = SubmitReply.congested) :
    file' = file := by
  simp only [submitHandler] at h
  split at h
  · simp only [Prod.mk.injEq] at h
    exact h.2.1.symm
  · split at h
    · simp only [Prod.mk.injEq] at h
      exact h.2.1.symm
    · split at h
      · simp only [Prod.mk.injEq] at h
        exact h.2.1.symm
      · split at h
        · simp only [Prod.mk.injEq] at h
          exact h.2.1.symm
        · simp only [Prod.mk.injEq] at h
          obtain ⟨h1, _, _⟩ := h
          subst h1
          rcases hr with hr | hr | hr | hr <;> simp at hr

/-- C7 witness: a concrete invalid-text submission against a one-item store
leaves the store unchanged. -/
theorem c7_errors_preserve_store_witness :
    (submitHandler (α := ℚ) id (fun _ => (1, 0)) 100000 3000 0 [] ""
        [⟨"hi", 0, 0, 0, 24, "#ff0000", 0⟩] (fun _ => ⟨0, 0, 0, 0, 0⟩)) =
      (SubmitReply.invalidText, [⟨"hi", 0, 0, 0, 24, "#ff0000", 0⟩], [0]) ∧
    (SubmitReply.invalidText (α := ℚ) = SubmitReply.rateLimited ∨
      SubmitReply.invalidText (α := ℚ) = SubmitReply.invalidText ∨
      SubmitReply.invalidText (α := ℚ) = SubmitReply.profanity ∨
      SubmitReply.invalidText (α := ℚ) = SubmitReply.congested) ∧
    ([⟨"hi", 0, 0, 0, 24, "#ff0000", 0⟩] : List (CanvasItem ℚ)) =
      [⟨"hi", 0, 0, 0, 24, "#ff0000", 0⟩] :=
  ⟨by decide, Or.inr (Or.inl rfl),
    c7_errors_preserve_store id (fun _ => (1, 0)) 100000 3000 0 [] ""
      [⟨"hi", 0, 0, 0, 24, "#ff0000", 0⟩] (fun _ => ⟨0, 0, 0, 0, 0⟩)
      SubmitReply.invalidText [⟨"hi", 0, 0, 0, 24, "#ff0000", 0⟩] [0]
      (by decide) (Or.inr (Or.inl rfl))⟩

/-- C10.  When the pruned timestamp count is already at or above the ceiling,
`isRateLimited` returns `true` and leaves the stored timestamp list exactly as
it was: the rejected request neither records its own timestamp nor replaces
the stored list with the pruned one. -/
theorem c10_rejected_no_mutation (maxRequests : ℕ) (window now : ℤ)
    (stored : List ℤ)
    (h : maxRequests ≤ (stored.filter fun t => decide (now - t < window)).length) :
    isRateLimitedWith maxRequests window now stored = (true, stored) := by
  simp [isRateLimitedWith, h]

/-- C10 witness: with ceiling 1 and one in-window stored timestamp, a new
request is rejected and the stored list is returned unchanged. -/
theorem c10_rejected_no_mutation_witness :
    (1 ≤ (([5] : List ℤ).filter fun t => decide ((6 : ℤ) - t < 3000)).length) ∧
    isRateLimitedWith 1 3000 6 [5] = (true, [5]) :=
  ⟨by decide, c10_rejected_no_mutation 1 3000 6 [5] (by decide)⟩

/-- C9.  Closing a connection removes its registry entry before anything is
broadcast; the online-count update and the viewport snapshot are then both
broadcast to the remaining connections, and the snapshot (computed from the
registry after removal) omits the departed connection's id. -/
theorem c9_close_broadcasts (k : ℕ) (clients : List ConnEntry) (e : ConnEntry)
    (he : e ∈ clients) (hk : e.key = k)
    (hids : (clients.map ConnEntry.id).Nodup) :
    closeHandler k clients =
      (clients.filter (fun c => c.key != k),
        (clients.filter (fun c => c.key != k)).map ConnEntry.key,
        [WsMessage.onlineCount (clients.filter (fun c => c.key != k)).length,
          WsMessage.viewports (viewportList (clients.filter (fun c => c.key != k)))]) ∧
    ∀ p ∈ viewportList (clients.filter (fun c => c.key != k)), p.1 ≠ e.id := by
  refine ⟨rfl, ?_⟩
  rintro ⟨i, v⟩ hp hip
  obtain ⟨c, hc, hcv⟩ := List.mem_filterMap.mp hp
  obtain ⟨v', _, hv2⟩ := Option.map_eq_some'.mp hcv
  have hcmem : c ∈ clients := List.mem_of_mem_filter hc
  have hckey : c.key ≠ k := by
    have := List.of_mem_filter hc
    simpa using this
  have hne : c ≠ e := fun hce => hckey (hce ▸ hk)
  have hid : c.id = e.id := by
    have : c.id = i := congrArg Prod.fst hv2
    simpa [this] using hip
  exact hne (List.inj_on_of_nodup_map hids hcmem he hid)

/-- C9 witness: closing the first of two connections broadcasts the online
count and a viewport snapshot not containing the departed id. -/
theorem c9_close_broadcasts_witness :
    ((⟨1, "ip1", "aaa", some ⟨0, 0, 1, 1, 1⟩⟩ : ConnEntry) ∈
      [(⟨1, "ip1", "aaa", some ⟨0, 0, 1, 1, 1⟩⟩ : ConnEntry),
        ⟨2, "ip2", "bbb", some ⟨2, 2, 1, 1, 1⟩⟩]) ∧
    ∀ p ∈ viewportList
        (([(⟨1, "ip1", "aaa", some ⟨0, 0, 1, 1, 1⟩⟩ : ConnEntry),
          ⟨2, "ip2", "bbb", some ⟨2, 2, 1, 1, 1⟩⟩]).filter fun c => c.key != 1),
      p.1 ≠ "aaa" :=
  ⟨by decide,
    (c9_close_broadcasts 1
      [⟨1, "ip1", "aaa", some ⟨0, 0, 1, 1, 1⟩⟩, ⟨2, "ip2", "bbb", some ⟨2, 2, 1, 1, 1⟩⟩]
      ⟨1, "ip1", "aaa", some ⟨0, 0, 1, 1, 1⟩⟩ (by decide) rfl (by decide)).2⟩

end ClaimsBasic

section PlacementLemmas

variable {α : Type*} [LinearOrderedField α] [FloorRing α]

/-- Any item produced by the placement loop passed the collision check against
the snapshot. -/
theorem placeLoopAux_collision_free (sqrt : α → α) (trig : α → α × α)
    (text : String) (now : ℤ) (snapshot : List (CanvasItem α))
    (draws : ℕ → Draw α) :
    ∀ (fuel attempts : ℕ) (item : CanvasItem α),
      placeLoopAux sqrt trig text now snapshot draws fuel attempts = some item →
      checkCollision trig item snapshot = false := by
  intro fuel
  induction fuel with
  | zero => intro attempts item h; simp [placeLoopAux] at h
  | succ f ih =>
    intro attempts item h
    simp only [placeLoopAux] at h
    by_cases hc : checkCollision trig
        (mkCandidate sqrt trig text now snapshot.length attempts (draws attempts))
        snapshot = true
    · rw [if_pos hc] at h
      exact ih _ _ h
    · rw [if_neg hc] at h
      injection h with h2
      rw [← h2]
      exact Bool.not_eq_true _ ▸ hc

/-- Against an empty snapshot the very first attempt is accepted, so the loop
returns the attempt-0 candidate. -/
theorem placeLoop_empty (sqrt : α → α) (trig : α → α × α) (text : String)
    (now : ℤ) (draws : ℕ → Draw α) :
    placeLoop sqrt trig text now ([] : List (CanvasItem α)) draws =
      some (mkCandidate sqrt trig text now 0 0 (draws 0)) := rfl

/-- All five uniform draws of one attempt lie in `[0, 1)`, as `Math.random()`
guarantees. -/
def DrawInRange (d : Draw α) : Prop :=
  0 ≤ d.angleU ∧ d.angleU < 1 ∧ 0 ≤ d.rU ∧ d.rU < 1 ∧ 0 ≤ d.rotU ∧
    d.rotU < 1 ∧ 0 ≤ d.fontU ∧ d.fontU < 1 ∧ 0 ≤ d.colorU ∧ d.colorU < 1

/-- The radius sampled by one placement attempt under real semantics:
`Math.sqrt(Math.random() * (maxRadius * maxRadius - minRadius * minRadius) +
minRadius * minRadius)`.  (Noncomputable because `Real.sqrt` carries no code;
this is the one oracle instantiation, the embedded loop itself stays
computable with `sqrt` as a parameter.) -/
noncomputable def sampleRadius (u minR maxR : ℝ) : ℝ :=
  Real.sqrt (u * (maxR * maxR - minR * minR) + minR * minR)

/-- The real-semantics trigonometric oracle: the source draws
`angle = Math.random() * Math.PI * 2` and uses `Math.cos(angle)`,
`Math.sin(angle)`. -/
noncomputable def trigR : ℝ → ℝ × ℝ := fun u =>
  (Real.cos (u * (Real.pi * 2)), Real.sin (u * (Real.pi * 2)))

end PlacementLemmas

section ClaimsPlacement

/-- C1.  Whenever the placement loop accepts an item, that item passes
`checkCollision` against every item of the snapshot read at the start of the
submission: each pairwise separating-axis test reports no intersection, and
consequently the two padded rotated bounding polygons have disjoint convex
hulls, for every choice of the square-root and trigonometric oracles. -/
theorem c1_accepted_no_overlap {α : Type*} [LinearOrderedField α] [FloorRing α]
    (sqrt : α → α) (trig : α → α × α) (text : String) (now : ℤ)
    (snapshot : List (CanvasItem α)) (draws : ℕ → Draw α)
    (item : CanvasItem α)
    (h : placeLoop sqrt trig text now snapshot draws = some item) :
    checkCollision trig item snapshot = false ∧
    ∀ it ∈ snapshot,
      doPolygonsIntersect (itemPoly trig item) (itemPoly trig it) = false ∧
      Disjoint (polyHull (itemPoly trig item)) (polyHull (itemPoly trig it)) := by
  have hfree : checkCollision trig item snapshot = false :=
    placeLoopAux_collision_free sqrt trig text now snapshot draws
      MAX_ATTEMPTS 0 item h
  refine ⟨hfree, fun it hit => ?_⟩
  have hno : doPolygonsIntersect (itemPoly trig item) (itemPoly trig it) = false := by
    have hall := List.any_eq_false.mp hfree it hit
    simpa using hall
  obtain ⟨n, _, hgap⟩ := (doPolygonsIntersect_eq_false_iff _ _).mp hno
  exact ⟨hno, hasGap_disjoint hgap⟩

set_option maxHeartbeats 2000000 in
/-- C1 witness: a concrete accepted placement against a one-item snapshot,
with identity oracles over `ℚ`, is collision-free against that item. -/
theorem c1_accepted_no_overlap_witness :
    (placeLoop (α := ℚ) id (fun _ => (1, 0)) "hi" 0
        [⟨"far", 10000, 0, 0, 24, "#ff0000", 0⟩] (fun _ => ⟨0, 0, 0, 0, 0⟩) =
      some (mkCandidate id (fun _ => (1, 0)) "hi" 0 1 0 ⟨0, 0, 0, 0, 0⟩)) ∧
    (checkCollision (α := ℚ) (fun _ => (1, 0))
        (mkCandidate id (fun _ => (1, 0)) "hi" 0 1 0 ⟨0, 0, 0, 0, 0⟩)
        [⟨"far", 10000, 0, 0, 24, "#ff0000", 0⟩] = false ∧
      ∀ it ∈ [(⟨"far", 10000, 0, 0, 24, "#ff0000", 0⟩ : CanvasItem ℚ)],
        doPolygonsIntersect
            (itemPoly (fun _ => (1, 0))
              (mkCandidate id (fun _ => (1, 0)) "hi" 0 1 0 ⟨0, 0, 0, 0, 0⟩))
            (itemPoly (fun _ => (1, 0)) it) = false ∧
          Disjoint
            (polyHull (itemPoly (fun _ => (1, 0))
              (mkCandidate id (fun _ => (1, 0)) "hi" 0 1 0 ⟨0, 0, 0, 0, 0⟩)))
            (polyHull (itemPoly (fun _ => (1, 0)) it))) := by
  have hcheck : checkCollision (α := ℚ) (fun _ => (1, 0))
      (mkCandidate id (fun _ => (1, 0)) "hi" 0 1 0 ⟨0, 0, 0, 0, 0⟩)
      [⟨"far", 10000, 0, 0, 24, "#ff0000", 0⟩] = false := by
    norm_num [checkCollision, doPolygonsIntersect, itemPoly,
      getRotatedRectCorners, itemWidth, mkCandidate, maxRadiusOf, minRadiusOf,
      expansionOf, axesOf, hasGap, projBounds, projStep, dot, edgeNormal,
      min_def, max_def, List.range_succ,
      show "hi".length = 2 from rfl, show "far".length = 3 from rfl]
  have hloop : placeLoop (α := ℚ) id (fun _ => (1, 0)) "hi" 0
      [⟨"far", 10000, 0, 0, 24, "#ff0000", 0⟩] (fun _ => ⟨0, 0, 0, 0, 0⟩) =
      some (mkCandidate id (fun _ => (1, 0)) "hi" 0 1 0 ⟨0, 0, 0, 0, 0⟩) := by
    rw [placeLoop, show MAX_ATTEMPTS = 4999 + 1 from rfl, placeLoopAux]
    simp only [List.length_cons, List.length_nil, Nat.zero_add, hcheck,
      Bool.false_eq_true, if_false]
  exact ⟨hloop,
    c1_accepted_no_overlap id (fun _ => (1, 0)) "hi" 0
      [⟨"far", 10000, 0, 0, 24, "#ff0000", 0⟩] (fun _ => ⟨0, 0, 0, 0, 0⟩)
      (mkCandidate id (fun _ => (1, 0)) "hi" 0 1 0 ⟨0, 0, 0, 0, 0⟩) hloop⟩

/-- C3.  The expansion, outer and inner radii are as the claim states; for
every `u ∈ [0, 1)` the sampled radius lies in `[minRadius, maxRadius]`; in
particular for `count = 0` and `attempts ≤ 100` it lies in `[0, 500]` and for
`count = 50` (and `attempts ≤ 100`) in `[500, 1000]`. -/
theorem c3_radius_in_annulus :
    (∀ (text : String) (now : ℤ) (count attempts : ℕ) (trig : ℝ → ℝ × ℝ)
        (d : Draw ℝ),
      (mkCandidate Real.sqrt trig text now count attempts d).x =
          sampleRadius d.rU (minRadiusOf count attempts)
            (maxRadiusOf count attempts) * (trig d.angleU).1 ∧
        (mkCandidate Real.sqrt trig text now count attempts d).y =
          sampleRadius d.rU (minRadiusOf count attempts)
            (maxRadiusOf count attempts) * (trig d.angleU).2) ∧
    (∀ count attempts : ℕ,
      (expansionOf attempts : ℝ) =
          (if attempts ≤ 100 then 0 else 5 * ((attempts : ℝ) - 100)) ∧
        (maxRadiusOf count attempts : ℝ) =
          500 + 10 * (count : ℝ) + expansionOf attempts ∧
        (minRadiusOf count attempts : ℝ) =
          max 0 (maxRadiusOf count attempts - 500)) ∧
    (∀ (count attempts : ℕ) (u : ℝ), 0 ≤ u → u < 1 →
      sampleRadius u (minRadiusOf count attempts) (maxRadiusOf count attempts) ∈
        Set.Icc (minRadiusOf count attempts : ℝ) (maxRadiusOf count attempts)) ∧
    (∀ (attempts : ℕ) (u : ℝ), attempts ≤ 100 → 0 ≤ u → u < 1 →
      sampleRadius u (minRadiusOf 0 attempts) (maxRadiusOf 0 attempts) ∈
        Set.Icc (0 : ℝ) 500) ∧
    (∀ (attempts : ℕ) (u : ℝ), attempts ≤ 100 → 0 ≤ u → u < 1 →
      sampleRadius u (minRadiusOf 50 attempts) (maxRadiusOf 50 attempts) ∈
        Set.Icc (500 : ℝ) 1000) := by
  have hexp : ∀ a : ℕ, 0 ≤ (expansionOf a : ℝ) := by
    intro a
    unfold expansionOf
    split
    · rename_i ha
      have h100 : (100 : ℝ) ≤ (a : ℝ) := by exact_mod_cast Nat.le_of_lt ha
      nlinarith
    · exact le_refl 0
  have hmaxR : ∀ c a : ℕ, (500 : ℝ) ≤ maxRadiusOf c a := by
    intro c a
    unfold maxRadiusOf
    have hc : (0 : ℝ) ≤ (c : ℝ) := Nat.cast_nonneg c
    have := hexp a
    nlinarith
  have hminR0 : ∀ c a : ℕ, (0 : ℝ) ≤ minRadiusOf c a := fun c a => le_max_left 0 _
  have hminmax : ∀ c a : ℕ, (minRadiusOf c a : ℝ) ≤ maxRadiusOf c a := by
    intro c a
    unfold minRadiusOf
    exact max_le (le_trans (by norm_num) (hmaxR c a)) (by linarith [hmaxR c a])
  have hbounds : ∀ (c a : ℕ) (u : ℝ), 0 ≤ u → u < 1 →
      sampleRadius u (minRadiusOf c a) (maxRadiusOf c a) ∈
        Set.Icc (minRadiusOf c a : ℝ) (maxRadiusOf c a) := by
    intro c a u hu hu1
    set m : ℝ := minRadiusOf c a with hm
    set M : ℝ := maxRadiusOf c a with hM
    have hm0 : (0 : ℝ) ≤ m := hminR0 c a
    have hmM : m ≤ M := hminmax c a
    have hM0 : (0 : ℝ) ≤ M := le_trans hm0 hmM
    have hD : (0 : ℝ) ≤ M * M - m * m := by nlinarith
    have h1 : m * m ≤ u * (M * M - m * m) + m * m := by nlinarith
    have h2 : u * (M * M - m * m) + m * m ≤ M * M := by nlinarith
    constructor
    · calc m = Real.sqrt (m * m) := (Real.sqrt_mul_self hm0).symm
        _ ≤ sampleRadius u m M := Real.sqrt_le_sqrt h1
    · calc sampleRadius u m M ≤ Real.sqrt (M * M) := Real.sqrt_le_sqrt h2
        _ = M := Real.sqrt_mul_self hM0
  have hzero : ∀ a : ℕ, a ≤ 100 → (expansionOf a : ℝ) = 0 := by
    intro a ha
    unfold expansionOf
    rw [if_neg (by omega)]
  have h0 : ∀ a : ℕ, a ≤ 100 →
      (minRadiusOf 0 a : ℝ) = 0 ∧ (maxRadiusOf 0 a : ℝ) = 500 := by
    intro a ha
    have hmax : (maxRadiusOf 0 a : ℝ) = 500 := by
      unfold maxRadiusOf
      rw [hzero a ha]
      norm_num
    refine ⟨?_, hmax⟩
    unfold minRadiusOf
    rw [hmax]
    norm_num
  have h50 : ∀ a : ℕ, a ≤ 100 →
      (minRadiusOf 50 a : ℝ) = 500 ∧ (maxRadiusOf 50 a : ℝ) = 1000 := by
    intro a ha
    have hmax : (maxRadiusOf 50 a : ℝ) = 1000 := by
      unfold maxRadiusOf
      rw [hzero a ha]
      norm_num
    refine ⟨?_, hmax⟩
    unfold minRadiusOf
    rw [hmax]
    norm_num
  refine ⟨fun text now count attempts trig d => ⟨rfl, rfl⟩, ?_, hbounds, ?_, ?_⟩
  · intro c a
    refine ⟨?_, by unfold maxRadiusOf; ring, rfl⟩
    unfold expansionOf
    by_cases ha : 100 < a
    · rw [if_pos ha, if_neg (by omega)]
      ring
    · rw [if_neg ha, if_pos (by omega)]
  · intro a u ha hu hu1
    rw [show Set.Icc (0 : ℝ) 500 =
        Set.Icc (minRadiusOf 0 a : ℝ) (maxRadiusOf 0 a) from by
      rw [(h0 a ha).1, (h0 a ha).2]]
    exact hbounds 0 a u hu hu1
  · intro a u ha hu hu1
    rw [show Set.Icc (500 : ℝ) 1000 =
        Set.Icc (minRadiusOf 50 a : ℝ) (maxRadiusOf 50 a) from by
      rw [(h50 a ha).1, (h50 a ha).2]]
    exact hbounds 50 a u hu hu1

/-- C3 witness: at `count = 0`, `attempts = 0`, `u = 1/2` the sampled radius
lies in `[0, 500]`, and at `count = 50` in `[500, 1000]`. -/
theorem c3_radius_in_annulus_witness :
    ((0 : ℕ) ≤ 100) ∧ ((0 : ℝ) ≤ 1 / 2) ∧ ((1 / 2 : ℝ) < 1) ∧
    sampleRadius (1 / 2) (minRadiusOf 0 0) (maxRadiusOf 0 0) ∈
      Set.Icc (0 : ℝ) 500 ∧
    sampleRadius (1 / 2) (minRadiusOf 50 0) (maxRadiusOf 50 0) ∈
      Set.Icc (500 : ℝ) 1000 :=
  ⟨by norm_num, by norm_num, by norm_num,
    c3_radius_in_annulus.2.2.2.1 0 (1 / 2) (by norm_num) (by norm_num)
      (by norm_num),
    c3_radius_in_annulus.2.2.2.2 0 (1 / 2) (by norm_num) (by norm_num)
      (by norm_num)⟩

set_option maxHeartbeats 1600000 in
/-- C8.  Whenever a submission against an empty canvas succeeds, and the
square-root and trigonometric oracles satisfy the laws of the real `Math.sqrt`
/`Math.cos`/`Math.sin` (and the uniform draws lie in `[0, 1)`), the accepted
item satisfies `x² + y² ≤ 500²`, has rotation in `[-70, 70]`, an integer font
size in `[24, 64]`, a colour from the fixed 8-entry palette, and is appended
to the persisted list that a subsequent bulk read returns. -/
theorem c8_empty_canvas_submission {α : Type*} [LinearOrderedField α]
    [FloorRing α] (sqrt : α → α) (trig : α → α × α)
    (hsqrt : ∀ t : α, 0 ≤ t → 0 ≤ sqrt t ∧ sqrt t * sqrt t = t)
    (htrig : ∀ u : α, (trig u).1 ^ 2 + (trig u).2 ^ 2 = 1)
    (maxRequests : ℕ) (window now : ℤ) (stored : List ℤ) (text : String)
    (draws : ℕ → Draw α) (jokes : List String)
    (hdraws : ∀ i, DrawInRange (draws i))
    (item : CanvasItem α) (file' : List (CanvasItem α)) (ts' : List ℤ)
    (h : submitHandler sqrt trig maxRequests window now stored text [] draws =
      (SubmitReply.success item, file', ts')) :
    item.x ^ 2 + item.y ^ 2 ≤ 500 ^ 2 ∧
    (-70 ≤ item.rotation ∧ item.rotation ≤ 70) ∧
    (24 ≤ item.fontSize ∧ item.fontSize ≤ 64) ∧
    item.color ∈ COLORS ∧
    file' = [] ++ [item] ∧
    item ∈ (getData file' jokes).canvas := by
  simp only [submitHandler, placeLoop_empty] at h
  split at h
  · simp at h
  · split at h
    · simp at h
    · split at h
      · simp at h
      · simp only [Prod.mk.injEq, SubmitReply.success.injEq] at h
        obtain ⟨hitem, hfile, hts⟩ := h
        subst hitem
        subst hfile
        obtain ⟨ha0, ha1, hr0, hr1, hro0, hro1, hf0, hf1, hc0, hc1⟩ := hdraws 0
        simp only [mkCandidate]
        have hmax : maxRadiusOf (α := α) 0 0 = 500 := by
          norm_num [maxRadiusOf, expansionOf]
        have hmin : minRadiusOf (α := α) 0 0 = 0 := by
          norm_num [minRadiusOf, maxRadiusOf, expansionOf]
        have hinner : (draws 0).rU *
            (maxRadiusOf (α := α) 0 0 * maxRadiusOf 0 0 -
              minRadiusOf 0 0 * minRadiusOf 0 0) +
            minRadiusOf 0 0 * minRadiusOf 0 0 = (draws 0).rU * 250000 := by
          rw [hmax, hmin]; ring
        have hinner0 : (0 : α) ≤ (draws 0).rU * 250000 :=
          mul_nonneg hr0 (by norm_num)
        have hsq := hsqrt ((draws 0).rU * 250000) hinner0
        have h41 : ((64 : α) - 24 + 1) = 41 := by norm_num
        have hlen8 : ((COLORS.length : ℕ) : α) = 8 := by norm_num [COLORS]
        refine ⟨?_, ⟨?_, ?_⟩, ⟨?_, ?_⟩, ?_, by simp, by simp [getData]⟩
        · rw [hinner]
          have key : (sqrt ((draws 0).rU * 250000) * (trig (draws 0).angleU).1) ^ 2 +
              (sqrt ((draws 0).rU * 250000) * (trig (draws 0).angleU).2) ^ 2 =
              (sqrt ((draws 0).rU * 250000) * sqrt ((draws 0).rU * 250000)) *
                ((trig (draws 0).angleU).1 ^ 2 + (trig (draws 0).angleU).2 ^ 2) := by
            ring
          rw [key, hsq.2, htrig ((draws 0).angleU), mul_one]
          nlinarith
        · nlinarith
        · nlinarith
        · rw [h41]
          have hfl0 : 0 ≤ ⌊(draws 0).fontU * 41⌋ :=
            Int.floor_nonneg.mpr (mul_nonneg hf0 (by norm_num))
          omega
        · rw [h41]
          have hfl1 : ⌊(draws 0).fontU * 41⌋ < 41 :=
            Int.floor_lt.mpr (by push_cast; nlinarith)
          omega
        · rw [hlen8]
          have hfl0 : 0 ≤ ⌊(draws 0).colorU * 8⌋ :=
            Int.floor_nonneg.mpr (mul_nonneg hc0 (by norm_num))
          have hfl1 : ⌊(draws 0).colorU * 8⌋ < 8 :=
            Int.floor_lt.mpr (by push_cast; nlinarith)
          have hidx : (⌊(draws 0).colorU * 8⌋).toNat < COLORS.length := by
            rw [show COLORS.length = 8 from rfl]
            omega
          rw [List.getD_eq_getElem COLORS "" hidx]
          exact List.getElem_mem hidx

/-- C8 witness: the all-zero-draw submission of `"HELLO"` against an empty
canvas, with the real oracles, yields an in-disc, in-range item present in the
subsequent bulk read. -/
theorem c8_empty_canvas_submission_witness :
    (mkCandidate Real.sqrt trigR "HELLO" 0 0 0 ⟨0, 0, 0, 0, 0⟩).x ^ 2 +
        (mkCandidate Real.sqrt trigR "HELLO" 0 0 0 ⟨0, 0, 0, 0, 0⟩).y ^ 2 ≤
      500 ^ 2 ∧
    (24 ≤ (mkCandidate Real.sqrt trigR "HELLO" 0 0 0 ⟨0, 0, 0, 0, 0⟩).fontSize ∧
      (mkCandidate Real.sqrt trigR "HELLO" 0 0 0 ⟨0, 0, 0, 0, 0⟩).fontSize ≤ 64) ∧
    (mkCandidate Real.sqrt trigR "HELLO" 0 0 0 ⟨0, 0, 0, 0, 0⟩).color ∈ COLORS ∧
    mkCandidate Real.sqrt trigR "HELLO" 0 0 0 ⟨0, 0, 0, 0, 0⟩ ∈
      (getData [mkCandidate Real.sqrt trigR "HELLO" 0 0 0 ⟨0, 0, 0, 0, 0⟩]
        []).canvas := by
  have h : submitHandler Real.sqrt trigR 100000 3000 0 [] "HELLO" []
      (fun _ => ⟨0, 0, 0, 0, 0⟩) =
      (SubmitReply.success (mkCandidate Real.sqrt trigR "HELLO" 0 0 0 ⟨0, 0, 0, 0, 0⟩),
        [] ++ [mkCandidate Real.sqrt trigR "HELLO" 0 0 0 ⟨0, 0, 0, 0, 0⟩],
        (isRateLimitedWith 100000 3000 0 []).2) := by
    simp only [submitHandler, placeLoop_empty,
      show (isRateLimitedWith 100000 3000 0 []).1 = false from by decide,
      show ("HELLO" = "") = False from by simp,
      show (67 < "HELLO".length) = False from by decide,
      show advancedFilterTest "HELLO" = false from by decide]
    simp
  have happ := c8_empty_canvas_submission Real.sqrt trigR
    (fun t ht => ⟨Real.sqrt_nonneg t, Real.mul_self_sqrt ht⟩)
    (fun u => Real.cos_sq_add_sin_sq _)
    100000 3000 0 [] "HELLO" (fun _ => ⟨0, 0, 0, 0, 0⟩) []
    (fun i => by norm_num [DrawInRange])
    (mkCandidate Real.sqrt trigR "HELLO" 0 0 0 ⟨0, 0, 0, 0, 0⟩)
    ([] ++ [mkCandidate Real.sqrt trigR "HELLO" 0 0 0 ⟨0, 0, 0, 0, 0⟩])
    (isRateLimitedWith 100000 3000 0 []).2 h
  exact ⟨happ.1, happ.2.2.1, happ.2.2.2.1,
    by simpa using happ.2.2.2.2.2⟩

end ClaimsPlacement

section SatExactness

/-- Strictly convex counterclockwise quadrilateral: all four consecutive edge
turns are strictly positive. -/
def ccwQuad (p0 p1 p2 p3 : Pt ℝ) : Prop :=
  0 < cross (p1 - p0) (p2 - p1) ∧ 0 < cross (p2 - p1) (p3 - p2) ∧
    0 < cross (p3 - p2) (p0 - p3) ∧ 0 < cross (p0 - p3) (p1 - p0)

/-- A list that is a strictly convex quadrilateral in either orientation. -/
def ConvexQuadL (l : List (Pt ℝ)) : Prop :=
  ∃ p0 p1 p2 p3, l = [p0, p1, p2, p3] ∧
    (ccwQuad p0 p1 p2 p3 ∨ ccwQuad p3 p2 p1 p0)

/-- Separating axis in the claim's sense: the projection intervals of the two
polygons onto the axis are disjoint. -/
def SepAxis (n : Pt ℝ) (a b : List (Pt ℝ)) : Prop :=
  ∃ mnA mxA mnB mxB, projBounds n a = some (mnA, mxA) ∧
    projBounds n b = some (mnB, mxB) ∧ (mxA < mnB ∨ mxB < mnA)

/-- The outward normal of the directed edge `p → q` of a counterclockwise
polygon (the negation of the `doPolygonsIntersect` edge normal). -/
def outN (p q : Pt ℝ) : Pt ℝ := (q.2 - p.2, -(q.1 - p.1))

theorem outN_neg (p q : Pt ℝ) : -outN p q = edgeNormal p q := by
  simp only [outN, edgeNormal, Prod.neg_mk, neg_neg]

theorem edgeNormal_swap (p q : Pt ℝ) : edgeNormal q p = -edgeNormal p q := by
  simp only [edgeNormal, Prod.neg_mk, neg_neg, Prod.mk.injEq]
  constructor <;> ring

theorem cross_self (u : Pt ℝ) : cross u u = 0 := by simp [cross]; ring

theorem cross_neg_left (u v : Pt ℝ) : cross (-u) v = -cross u v := by
  simp [cross]; ring

theorem cross_neg_right (u v : Pt ℝ) : cross u (-v) = -cross u v := by
  simp [cross]; ring

theorem cross_neg_neg (u v : Pt ℝ) : cross (-u) (-v) = cross u v := by
  simp [cross]

theorem dot_neg_left (n p : Pt ℝ) : dot (-n) p = -dot n p := by
  simp [dot]; ring

/-- The planar Grassmann–Plücker three-term relation on four vectors. -/
theorem cross_plucker (a b c d : Pt ℝ) :
    cross a b * cross c d - cross a c * cross b d + cross a d * cross b c = 0 := by
  simp only [cross]; ring

/-- The cross product of outward normals equals the cross product of the edge
vectors. -/
theorem cross_outN_outN (a b c d : Pt ℝ) :
    cross (outN a b) (outN c d) = cross (b - a) (d - c) := by
  simp only [cross, outN, Prod.fst_sub, Prod.snd_sub]; ring

/-- A vector with zero cross product against a nonzero vector is a scalar
multiple of it. -/
theorem parallel_of_cross_eq_zero {u x : Pt ℝ} (hu : u ≠ 0)
    (h : cross u x = 0) : ∃ t : ℝ, x = (t * u.1, t * u.2) := by
  by_cases h1 : u.1 = 0
  · have h2 : u.2 ≠ 0 := by
      intro h2
      exact hu (Prod.ext h1 h2)
    have hx1 : x.1 = 0 := by
      simp only [cross, h1, zero_mul, zero_sub, neg_eq_zero] at h
      exact (mul_eq_zero.mp h).resolve_left h2
    refine ⟨x.2 / u.2, Prod.ext_iff.mpr ⟨?_, ?_⟩⟩
    · show x.1 = x.2 / u.2 * u.1
      rw [hx1, h1, mul_zero]
    · show x.2 = x.2 / u.2 * u.2
      field_simp
  · have hx2 : x.2 = u.2 * x.1 / u.1 := by
      field_simp
      simp only [cross] at h
      linarith
    refine ⟨x.1 / u.1, Prod.ext_iff.mpr ⟨?_, ?_⟩⟩
    · show x.1 = x.1 / u.1 * u.1
      field_simp
    · show x.2 = x.1 / u.1 * u.2
      rw [hx2]
      ring

/-- Four vectors in strictly positive cyclic order have cones that cover the
plane: every vector lies in the cone of two cyclically consecutive ones. -/
theorem cone_cover (m0 m1 m2 m3 x : Pt ℝ)
    (h01 : 0 < cross m0 m1) (h12 : 0 < cross m1 m2)
    (h23 : 0 < cross m2 m3) (h30 : 0 < cross m3 m0) :
    (0 ≤ cross m0 x ∧ 0 ≤ cross x m1) ∨ (0 ≤ cross m1 x ∧ 0 ≤ cross x m2) ∨
      (0 ≤ cross m2 x ∧ 0 ≤ cross x m3) ∨ (0 ≤ cross m3 x ∧ 0 ≤ cross x m0) := by
  by_contra hcon
  push_neg at hcon
  obtain ⟨k0, k1, k2, k3⟩ := hcon
  have hp1 := cross_plucker m0 m1 m2 x
  have hp2 := cross_plucker m0 m2 m3 x
  have hanti : ∀ u v : Pt ℝ, cross u v = -cross v u := by
    intro u v; simp [cross]; ring
  rcases le_or_lt 0 (cross m0 x) with ht0 | ht0
  · have ht1 : 0 < cross m1 x := by
      have := k0 ht0
      rw [hanti x m1] at this
      linarith
    have ht2 : 0 < cross m2 x := by
      have := k1 (le_of_lt ht1)
      rw [hanti x m2] at this
      linarith
    have ht3 : 0 < cross m3 x := by
      have := k2 (le_of_lt ht2)
      rw [hanti x m3] at this
      linarith
    have h02 : 0 < cross m0 m2 := by nlinarith [hp1]
    have h03 : 0 < cross m0 m3 := by nlinarith [hp2]
    have : cross m3 m0 = -cross m0 m3 := hanti m3 m0
    linarith
  · have ht3 : cross m3 x < 0 := by
      by_contra ht3
      push_neg at ht3
      have := k3 ht3
      rw [hanti x m0] at this
      linarith
    have ht2 : cross m2 x < 0 := by
      by_contra ht2
      push_neg at ht2
      have := k2 ht2
      rw [hanti x m3] at this
      linarith
    have ht1 : cross m1 x < 0 := by
      by_contra ht1
      push_neg at ht1
      have := k1 ht1
      rw [hanti x m2] at this
      linarith
    have h02 : 0 < cross m0 m2 := by nlinarith [hp1]
    have h03 : 0 < cross m0 m3 := by nlinarith [hp2]
    have : cross m3 m0 = -cross m0 m3 := hanti m3 m0
    linarith

/-- Cramer decomposition: a vector in the closed cone of a positively oriented
pair is a nonnegative combination of the pair. -/
theorem cone_rep (u1 u2 x : Pt ℝ) (h : 0 < cross u1 u2)
    (h1 : 0 ≤ cross u1 x) (h2 : 0 ≤ cross x u2) :
    ∃ lam mu : ℝ, 0 ≤ lam ∧ 0 ≤ mu ∧
      x = (lam * u1.1 + mu * u2.1, lam * u1.2 + mu * u2.2) := by
  have hc : cross u1 u2 ≠ 0 := ne_of_gt h
  refine ⟨cross x u2 / cross u1 u2, cross u1 x / cross u1 u2,
    div_nonneg h2 (le_of_lt h), div_nonneg h1 (le_of_lt h), ?_⟩
  have e1 : cross x u2 * u1.1 + cross u1 x * u2.1 = x.1 * cross u1 u2 := by
    simp only [cross]; ring
  have e2 : cross x u2 * u1.2 + cross u1 x * u2.2 = x.2 * cross u1 u2 := by
    simp only [cross]; ring
  refine Prod.ext_iff.mpr ⟨?_, ?_⟩
  · show x.1 = cross x u2 / cross u1 u2 * u1.1 + cross u1 x / cross u1 u2 * u2.1
    field_simp
    linarith [e1]
  · show x.2 = cross x u2 / cross u1 u2 * u1.2 + cross u1 x / cross u1 u2 * u2.2
    field_simp
    linarith [e2]

/-- Dot product against an explicit nonnegative combination. -/
theorem dot_rep (lam mu : ℝ) (u1 u2 p : Pt ℝ) :
    dot (lam * u1.1 + mu * u2.1, lam * u1.2 + mu * u2.2) p =
      lam * dot u1 p + mu * dot u2 p := by
  simp only [dot]; ring

/-- A vector in the closed cone of two supporting directions inherits their
upper support: the maximum over the list is still attained at `v`. -/
theorem cone_dot_le (u1 u2 r : Pt ℝ) (h : 0 < cross u1 u2)
    (h1 : 0 ≤ cross u1 r) (h2 : 0 ≤ cross r u2) (v : Pt ℝ) (S : List (Pt ℝ))
    (hU1 : ∀ p ∈ S, dot u1 p ≤ dot u1 v) (hU2 : ∀ p ∈ S, dot u2 p ≤ dot u2 v) :
    ∀ p ∈ S, dot r p ≤ dot r v := by
  obtain ⟨lam, mu, hl, hm, hrep⟩ := cone_rep u1 u2 r h h1 h2
  intro p hp
  rw [hrep, dot_rep, dot_rep]
  exact add_le_add (mul_le_mul_of_nonneg_left (hU1 p hp) hl)
    (mul_le_mul_of_nonneg_left (hU2 p hp) hm)

/-- Mirror of `cone_dot_le` for lower supports (minima). -/
theorem cone_dot_ge (u1 u2 r : Pt ℝ) (h : 0 < cross u1 u2)
    (h1 : 0 ≤ cross u1 r) (h2 : 0 ≤ cross r u2) (w : Pt ℝ) (S : List (Pt ℝ))
    (hU1 : ∀ q ∈ S, dot u1 w ≤ dot u1 q) (hU2 : ∀ q ∈ S, dot u2 w ≤ dot u2 q) :
    ∀ q ∈ S, dot r w ≤ dot r q := by
  obtain ⟨lam, mu, hl, hm, hrep⟩ := cone_rep u1 u2 r h h1 h2
  intro q hq
  rw [hrep, dot_rep, dot_rep]
  exact add_le_add (mul_le_mul_of_nonneg_left (hU1 q hq) hl)
    (mul_le_mul_of_nonneg_left (hU2 q hq) hm)

/-- Computation of the axis list of a quadrilateral. -/
theorem axesOf_quad (a b c d : Pt ℝ) :
    axesOf [a, b, c, d] =
      [edgeNormal a b, edgeNormal b c, edgeNormal c d, edgeNormal d a] := by
  simp [axesOf, List.range_succ]

/-- Edge support for a strictly convex counterclockwise quadrilateral: each
edge's outward normal attains its maximum over the vertices at both endpoints
of that edge. -/
theorem ccw_support (p0 p1 p2 p3 : Pt ℝ) (h : ccwQuad p0 p1 p2 p3) :
    (∀ q ∈ [p0, p1, p2, p3],
      dot (outN p0 p1) q ≤ dot (outN p0 p1) p0 ∧
        dot (outN p0 p1) q ≤ dot (outN p0 p1) p1) ∧
    (∀ q ∈ [p0, p1, p2, p3],
      dot (outN p1 p2) q ≤ dot (outN p1 p2) p1 ∧
        dot (outN p1 p2) q ≤ dot (outN p1 p2) p2) ∧
    (∀ q ∈ [p0, p1, p2, p3],
      dot (outN p2 p3) q ≤ dot (outN p2 p3) p2 ∧
        dot (outN p2 p3) q ≤ dot (outN p2 p3) p3) ∧
    (∀ q ∈ [p0, p1, p2, p3],
      dot (outN p3 p0) q ≤ dot (outN p3 p0) p3 ∧
        dot (outN p3 p0) q ≤ dot (outN p3 p0) p0) := by
  obtain ⟨h0, h1, h2, h3⟩ := h
  simp only [cross, Prod.fst_sub, Prod.snd_sub] at h0 h1 h2 h3
  refine ⟨?_, ?_, ?_, ?_⟩ <;>
    · intro q hq
      simp only [List.mem_cons, List.not_mem_nil, or_false] at hq
      rcases hq with rfl | rfl | rfl | rfl <;>
        exact ⟨by simp only [dot, outN]; nlinarith [h0, h1, h2, h3],
          by simp only [dot, outN]; nlinarith [h0, h1, h2, h3]⟩

/-- Covering data for a counterclockwise quadrilateral: any direction `x` lies
in the closed normal cone at some vertex `v`, whose two incident outward edge
normals support the whole vertex list at `v` and negate into the
`doPolygonsIntersect` axis list. -/
theorem ccw_cone_data (p0 p1 p2 p3 : Pt ℝ) (h : ccwQuad p0 p1 p2 p3)
    (x : Pt ℝ) :
    ∃ u1 u2 v, v ∈ [p0, p1, p2, p3] ∧ 0 < cross u1 u2 ∧
      0 ≤ cross u1 x ∧ 0 ≤ cross x u2 ∧
      (∀ p ∈ [p0, p1, p2, p3], dot u1 p ≤ dot u1 v) ∧
      (∀ p ∈ [p0, p1, p2, p3], dot u2 p ≤ dot u2 v) ∧
      -u1 ∈ axesOf [p0, p1, p2, p3] ∧ -u2 ∈ axesOf [p0, p1, p2, p3] := by
  obtain ⟨s0, s1, s2, s3⟩ := ccw_support p0 p1 p2 p3 h
  have c01 : 0 < cross (outN p0 p1) (outN p1 p2) := by
    rw [cross_outN_outN]; exact h.1
  have c12 : 0 < cross (outN p1 p2) (outN p2 p3) := by
    rw [cross_outN_outN]; exact h.2.1
  have c23 : 0 < cross (outN p2 p3) (outN p3 p0) := by
    rw [cross_outN_outN]; exact h.2.2.1
  have c30 : 0 < cross (outN p3 p0) (outN p0 p1) := by
    rw [cross_outN_outN]; exact h.2.2.2
  have hax : ∀ a b : Pt ℝ, edgeNormal a b ∈ axesOf [p0, p1, p2, p3] →
      -outN a b ∈ axesOf [p0, p1, p2, p3] := fun a b hab => by
    rwa [outN_neg]
  rcases cone_cover (outN p0 p1) (outN p1 p2) (outN p2 p3) (outN p3 p0) x
      c01 c12 c23 c30 with ⟨h1, h2⟩ | ⟨h1, h2⟩ | ⟨h1, h2⟩ | ⟨h1, h2⟩
  · exact ⟨outN p0 p1, outN p1 p2, p1, by simp, c01, h1, h2,
      fun p hp => (s0 p hp).2, fun p hp => (s1 p hp).1,
      hax p0 p1 (by rw [axesOf_quad]; simp),
      hax p1 p2 (by rw [axesOf_quad]; simp)⟩
  · exact ⟨outN p1 p2, outN p2 p3, p2, by simp, c12, h1, h2,
      fun p hp => (s1 p hp).2, fun p hp => (s2 p hp).1,
      hax p1 p2 (by rw [axesOf_quad]; simp),
      hax p2 p3 (by rw [axesOf_quad]; simp)⟩
  · exact ⟨outN p2 p3, outN p3 p0, p3, by simp, c23, h1, h2,
      fun p hp => (s2 p hp).2, fun p hp => (s3 p hp).1,
      hax p2 p3 (by rw [axesOf_quad]; simp),
      hax p3 p0 (by rw [axesOf_quad]; simp)⟩
  · exact ⟨outN p3 p0, outN p0 p1, p0, by simp, c30, h1, h2,
      fun p hp => (s3 p hp).2, fun p hp => (s0 p hp).1,
      hax p3 p0 (by rw [axesOf_quad]; simp),
      hax p0 p1 (by rw [axesOf_quad]; simp)⟩

/-- Covering data for a strictly convex quadrilateral of either orientation:
the supporting cone directions are (up to sign) axes of the
`doPolygonsIntersect` axis list. -/
theorem quad_cone_data (l : List (Pt ℝ)) (h : ConvexQuadL l) (x : Pt ℝ) :
    ∃ u1 u2 v, v ∈ l ∧ 0 < cross u1 u2 ∧ 0 ≤ cross u1 x ∧ 0 ≤ cross x u2 ∧
      (∀ p ∈ l, dot u1 p ≤ dot u1 v) ∧ (∀ p ∈ l, dot u2 p ≤ dot u2 v) ∧
      (u1 ∈ axesOf l ∨ -u1 ∈ axesOf l) ∧ (u2 ∈ axesOf l ∨ -u2 ∈ axesOf l) := by
  obtain ⟨p0, p1, p2, p3, rfl, hcc | hcw⟩ := h
  · obtain ⟨u1, u2, v, hv, hcr, h1, h2, hs1, hs2, ha1, ha2⟩ :=
      ccw_cone_data p0 p1 p2 p3 hcc x
    exact ⟨u1, u2, v, hv, hcr, h1, h2, hs1, hs2, Or.inr ha1, Or.inr ha2⟩
  · obtain ⟨u1, u2, v, hv, hcr, h1, h2, hs1, hs2, ha1, ha2⟩ :=
      ccw_cone_data p3 p2 p1 p0 hcw x
    have hmem : ∀ y : Pt ℝ, y ∈ [p3, p2, p1, p0] ↔ y ∈ [p0, p1, p2, p3] := by
      intro y
      simp only [List.mem_cons, List.not_mem_nil, or_false]
      tauto
    have haxes : ∀ r : Pt ℝ, r ∈ axesOf [p3, p2, p1, p0] →
        -r ∈ axesOf [p0, p1, p2, p3] := by
      intro r hr
      rw [axesOf_quad] at hr
      rw [axesOf_quad]
      simp only [List.mem_cons, List.not_mem_nil, or_false] at hr ⊢
      rcases hr with rfl | rfl | rfl | rfl
      · rw [edgeNormal_swap p2 p3, neg_neg]
        tauto
      · rw [edgeNormal_swap p1 p2, neg_neg]
        tauto
      · rw [edgeNormal_swap p0 p1, neg_neg]
        tauto
      · rw [edgeNormal_swap p3 p0, neg_neg]
        tauto
    refine ⟨u1, u2, v, (hmem v).mp hv, hcr, h1, h2,
      fun p hp => hs1 p ((hmem p).mpr hp), fun p hp => hs2 p ((hmem p).mpr hp),
      Or.inl ?_, Or.inl ?_⟩
    · have := haxes _ ha1
      rwa [neg_neg] at this
    · have := haxes _ ha2
      rwa [neg_neg] at this

theorem cross_anticomm (u v : Pt ℝ) : cross u v = -cross v u := by
  simp [cross]; ring

/-- A failed gap test on an axis yields vertices witnessing overlap of the
projection intervals, in both directions. -/
theorem hasGap_false_exists {n : Pt ℝ} {a b : List (Pt ℝ)} (ha : a ≠ [])
    (hb : b ≠ []) (h : hasGap n a b = false) :
    (∃ p ∈ a, ∃ q ∈ b, dot n q ≤ dot n p) ∧
      (∃ p ∈ a, ∃ q ∈ b, dot n p ≤ dot n q) := by
  obtain ⟨p0, arest, rfl⟩ : ∃ p0 arest, a = p0 :: arest := by
    cases a with
    | nil => exact absurd rfl ha
    | cons x xs => exact ⟨x, xs, rfl⟩
  obtain ⟨q0, brest, rfl⟩ : ∃ q0 brest, b = q0 :: brest := by
    cases b with
    | nil => exact absurd rfl hb
    | cons x xs => exact ⟨x, xs, rfl⟩
  obtain ⟨mnA, mxA, heqA, hallA, hamA, haMA⟩ := projBounds_spec n p0 arest
  obtain ⟨mnB, mxB, heqB, hallB, hamB, haMB⟩ := projBounds_spec n q0 brest
  unfold hasGap at h
  rw [heqA, heqB] at h
  simp only [Bool.or_eq_false_iff, decide_eq_false_iff_not, not_lt] at h
  obtain ⟨hba, hab⟩ := h
  constructor
  · obtain ⟨p, hp, hpe⟩ := haMA
    obtain ⟨q, hq, hqe⟩ := hamB
    exact ⟨p, hp, q, hq, by rw [hpe, hqe]; exact hba⟩
  · obtain ⟨p, hp, hpe⟩ := hamA
    obtain ⟨q, hq, hqe⟩ := haMB
    exact ⟨p, hp, q, hq, by rw [hpe, hqe]; exact hab⟩

/-- When no axis of the combined axis list shows a gap, every direction that
is (up to sign) such an axis admits vertices with overlapping projections. -/
theorem ng_fact {As Bs : List (Pt ℝ)} (hA : As ≠ []) (hB : Bs ≠ [])
    (hng : ∀ n ∈ axesOf As ++ axesOf Bs, hasGap n As Bs = false) {r : Pt ℝ}
    (hr : r ∈ axesOf As ++ axesOf Bs ∨ -r ∈ axesOf As ++ axesOf Bs) :
    ∃ p ∈ As, ∃ q ∈ Bs, dot r q ≤ dot r p := by
  rcases hr with hr | hr
  · exact (hasGap_false_exists hA hB (hng r hr)).1
  · obtain ⟨p, hp, q, hq, hle⟩ := (hasGap_false_exists hA hB (hng _ hr)).2
    rw [dot_neg_left, dot_neg_left] at hle
    exact ⟨p, hp, q, hq, by linarith⟩

/-- Disjoint hulls of nonempty vertex lists admit a direction strictly
separating all vertices (geometric Hahn–Banach). -/
theorem exists_sep_direction {a b : List (Pt ℝ)}
    (hd : Disjoint (polyHull a) (polyHull b)) :
    ∃ n0 : Pt ℝ, ∀ p ∈ a, ∀ q ∈ b, dot n0 p < dot n0 q := by
  have hfa : ({p : Pt ℝ | p ∈ a}).Finite := a.finite_toSet
  have hfb : ({p : Pt ℝ | p ∈ b}).Finite := b.finite_toSet
  have hca : Convex ℝ (polyHull a) := convex_convexHull ℝ _
  have hcb : Convex ℝ (polyHull b) := convex_convexHull ℝ _
  have hka : IsCompact (polyHull a) := hfa.isCompact_convexHull
  have hclb : IsClosed (polyHull b) := hfb.isCompact_convexHull.isClosed
  obtain ⟨f, u, v, hfu, huv, hfv⟩ :=
    geometric_hahn_banach_compact_closed hca hka hcb hclb hd
  refine ⟨(f (1, 0), f (0, 1)), ?_⟩
  have hf : ∀ x : Pt ℝ, dot (f (1, 0), f (0, 1)) x = f x := by
    intro x
    have hx : (x : ℝ × ℝ) = x.1 • ((1 : ℝ), (0 : ℝ)) + x.2 • ((0 : ℝ), (1 : ℝ)) := by
      refine Prod.ext_iff.mpr ⟨?_, ?_⟩ <;> simp
    calc dot (f (1, 0), f (0, 1)) x = x.1 * f (1, 0) + x.2 * f (0, 1) := by
          simp [dot]
          ring
      _ = f (x.1 • ((1 : ℝ), (0 : ℝ))) + f (x.2 • ((0 : ℝ), (1 : ℝ))) := by
          rw [map_smul, map_smul]
          simp [smul_eq_mul]
      _ = f (x.1 • ((1 : ℝ), (0 : ℝ)) + x.2 • ((0 : ℝ), (1 : ℝ))) :=
          (map_add f _ _).symm
      _ = f x := by rw [← hx]
  intro p hp q hq
  rw [hf, hf]
  have h1 : f p < u := hfu p (subset_convexHull ℝ _ hp)
  have h2 : v < f q := hfv q (subset_convexHull ℝ _ hq)
  linarith

set_option maxHeartbeats 1600000 in
/-- Core contradiction: a strict vertex-separating direction lying in the
supporting cones of both quadrilaterals is incompatible with all four cone
axes failing the gap test. -/
theorem core_contradiction (As Bs : List (Pt ℝ)) (v w u1 u2 w1 w2 n0 : Pt ℝ)
    (hv : v ∈ As) (hw : w ∈ Bs)
    (hu : 0 < cross u1 u2) (hww : 0 < cross w1 w2)
    (hAu1 : ∀ p ∈ As, dot u1 p ≤ dot u1 v)
    (hAu2 : ∀ p ∈ As, dot u2 p ≤ dot u2 v)
    (hBw1 : ∀ q ∈ Bs, dot w1 w ≤ dot w1 q)
    (hBw2 : ∀ q ∈ Bs, dot w2 w ≤ dot w2 q)
    (hc1 : 0 ≤ cross u1 n0) (hc2 : 0 ≤ cross n0 u2)
    (hc3 : 0 ≤ cross w1 n0) (hc4 : 0 ≤ cross n0 w2)
    (hsep : ∀ p ∈ As, ∀ q ∈ Bs, dot n0 p < dot n0 q)
    (ng1 : ∃ p ∈ As, ∃ q ∈ Bs, dot u1 q ≤ dot u1 p)
    (ng2 : ∃ p ∈ As, ∃ q ∈ Bs, dot u2 q ≤ dot u2 p)
    (ng3 : ∃ p ∈ As, ∃ q ∈ Bs, dot w1 q ≤ dot w1 p)
    (ng4 : ∃ p ∈ As, ∃ q ∈ Bs, dot w2 q ≤ dot w2 p) :
    False := by
  have par_case : ∀ r : Pt ℝ, (∃ p ∈ As, ∃ q ∈ Bs, dot r q ≤ dot r p) →
      ∀ t : ℝ, 0 ≤ t → n0 = (t * r.1, t * r.2) → False := by
    rintro r ⟨p, hp, q, hq, hle⟩ t ht hrep
    have hd : ∀ x : Pt ℝ, dot (t * r.1, t * r.2) x = t * dot r x := by
      intro x
      simp [dot]
      ring
    rcases eq_or_lt_of_le ht with rfl | ht
    · have hvw := hsep v hv w hw
      rw [hrep, hd, hd] at hvw
      simp at hvw
    · have hpq := hsep p hp q hq
      rw [hrep, hd, hd] at hpq
      have : dot r p < dot r q := (mul_lt_mul_left ht).mp hpq
      linarith
  have hu1ne : u1 ≠ 0 := by
    intro h0
    rw [h0] at hu
    simp [cross] at hu
  have hu2ne : u2 ≠ 0 := by
    intro h0
    rw [h0] at hu
    simp [cross] at hu
  have hw1ne : w1 ≠ 0 := by
    intro h0
    rw [h0] at hww
    simp [cross] at hww
  have hw2ne : w2 ≠ 0 := by
    intro h0
    rw [h0] at hww
    simp [cross] at hww
  rcases eq_or_lt_of_le hc1 with hc1e | hc1s
  · obtain ⟨t, hrep⟩ := parallel_of_cross_eq_zero hu1ne hc1e.symm
    have hts : cross n0 u2 = t * cross u1 u2 := by
      rw [hrep]
      simp [cross]
      ring
    have ht : 0 ≤ t := by nlinarith [hc2, hts, hu]
    exact par_case u1 ng1 t ht hrep
  rcases eq_or_lt_of_le hc2 with hc2e | hc2s
  · have h0 : cross u2 n0 = 0 := by
      rw [cross_anticomm]
      rw [← hc2e]
      ring
    obtain ⟨t, hrep⟩ := parallel_of_cross_eq_zero hu2ne h0
    have hts : cross u1 n0 = t * cross u1 u2 := by
      rw [hrep]
      simp [cross]
      ring
    have ht : 0 ≤ t := by nlinarith [hc1, hts, hu]
    exact par_case u2 ng2 t ht hrep
  rcases eq_or_lt_of_le hc3 with hc3e | hc3s
  · obtain ⟨t, hrep⟩ := parallel_of_cross_eq_zero hw1ne hc3e.symm
    have hts : cross n0 w2 = t * cross w1 w2 := by
      rw [hrep]
      simp [cross]
      ring
    have ht : 0 ≤ t := by nlinarith [hc4, hts, hww]
    exact par_case w1 ng3 t ht hrep
  rcases eq_or_lt_of_le hc4 with hc4e | hc4s
  · have h0 : cross w2 n0 = 0 := by
      rw [cross_anticomm]
      rw [← hc4e]
      ring
    obtain ⟨t, hrep⟩ := parallel_of_cross_eq_zero hw2ne h0
    have hts : cross w1 n0 = t * cross w1 w2 := by
      rw [hrep]
      simp [cross]
      ring
    have ht : 0 ≤ t := by nlinarith [hc3, hts, hww]
    exact par_case w2 ng4 t ht hrep
  have finish : ∀ r1 r2 : Pt ℝ, 0 < cross r1 r2 → 0 ≤ cross r1 n0 →
      0 ≤ cross n0 r2 →
      (∀ p ∈ As, dot r1 p ≤ dot r1 v) → (∀ p ∈ As, dot r2 p ≤ dot r2 v) →
      (∀ q ∈ Bs, dot r1 w ≤ dot r1 q) → (∀ q ∈ Bs, dot r2 w ≤ dot r2 q) →
      (∃ p ∈ As, ∃ q ∈ Bs, dot r1 q ≤ dot r1 p) →
      (∃ p ∈ As, ∃ q ∈ Bs, dot r2 q ≤ dot r2 p) → False := by
    rintro r1 r2 hr hrn hnr hA1 hA2 hB1 hB2 ⟨p1, hp1, q1, hq1, hle1⟩
      ⟨p2, hp2, q2, hq2, hle2⟩
    have hwv1 : dot r1 w ≤ dot r1 v :=
      le_trans (le_trans (hB1 q1 hq1) hle1) (hA1 p1 hp1)
    have hwv2 : dot r2 w ≤ dot r2 v :=
      le_trans (le_trans (hB2 q2 hq2) hle2) (hA2 p2 hp2)
    obtain ⟨lam, mu, hl, hm, hrep⟩ := cone_rep r1 r2 n0 hr hrn hnr
    have hvw := hsep v hv w hw
    rw [hrep, dot_rep, dot_rep] at hvw
    nlinarith [mul_le_mul_of_nonneg_left hwv1 hl,
      mul_le_mul_of_nonneg_left hwv2 hm]
  have hAle : ∀ r : Pt ℝ, 0 ≤ cross u1 r → 0 ≤ cross r u2 →
      ∀ p ∈ As, dot r p ≤ dot r v :=
    fun r h1 h2 => cone_dot_le u1 u2 r hu h1 h2 v As hAu1 hAu2
  have hBge : ∀ r : Pt ℝ, 0 ≤ cross w1 r → 0 ≤ cross r w2 →
      ∀ q ∈ Bs, dot r w ≤ dot r q :=
    fun r h1 h2 => cone_dot_ge w1 w2 r hww h1 h2 w Bs hBw1 hBw2
  rcases le_or_lt 0 (cross u1 w1) with s1 | s1 <;>
    rcases le_or_lt 0 (cross u2 w2) with s2 | s2
  · have hw1u2 : 0 < cross w1 u2 := by
      have hp := cross_plucker u1 w1 n0 u2
      nlinarith [hp, mul_nonneg s1 hc2s.le, mul_pos hu hc3s, hc1s]
    exact finish w1 u2 hw1u2 hc3 hc2
      (hAle w1 s1 hw1u2.le)
      (hAle u2 hu.le (by rw [cross_self]))
      (hBge w1 (by rw [cross_self]) hww.le)
      (hBge u2 hw1u2.le s2)
      ng3 ng2
  · have hw1u2 : 0 < cross w1 u2 := by
      have hp := cross_plucker u1 w1 n0 u2
      nlinarith [hp, mul_nonneg s1 hc2s.le, mul_pos hu hc3s, hc1s]
    have hu1w2 : 0 < cross u1 w2 := by
      have hp := cross_plucker u1 w2 n0 u2
      have ha1 : cross w2 u2 = -cross u2 w2 := cross_anticomm w2 u2
      have ha2 : cross w2 n0 = -cross n0 w2 := cross_anticomm w2 n0
      nlinarith [hp, ha1, ha2, mul_pos hc1s (by linarith : (0 : ℝ) < -cross u2 w2),
        mul_pos hu hc4s, hc2s]
    have hw2u2 : 0 ≤ cross w2 u2 := by
      have := cross_anticomm w2 u2
      linarith
    exact finish w1 w2 hww hc3 hc4
      (hAle w1 s1 hw1u2.le)
      (hAle w2 hu1w2.le hw2u2)
      (hBge w1 (by rw [cross_self]) hww.le)
      (hBge w2 hww.le (by rw [cross_self]))
      ng3 ng4
  · have hw1u1 : 0 < cross w1 u1 := by
      have := cross_anticomm w1 u1
      linarith
    have hu1w2 : 0 < cross u1 w2 := by
      have hp := cross_plucker w1 u1 n0 w2
      nlinarith [hp, mul_pos hw1u1 hc4s, mul_pos hww hc1s, hc3s]
    have hw1u2 : 0 < cross w1 u2 := by
      have hp := cross_plucker w1 u2 n0 w2
      have ha : cross u2 n0 = -cross n0 u2 := cross_anticomm u2 n0
      nlinarith [hp, ha, mul_nonneg hc3s.le s2, mul_pos hww hc2s, hc4s]
    exact finish u1 u2 hu hc1 hc2
      (hAle u1 (by rw [cross_self]) hu.le)
      (hAle u2 hu.le (by rw [cross_self]))
      (hBge u1 hw1u1.le hu1w2.le)
      (hBge u2 hw1u2.le s2)
      ng1 ng2
  · have hw1u1 : 0 < cross w1 u1 := by
      have := cross_anticomm w1 u1
      linarith
    have hu1w2 : 0 < cross u1 w2 := by
      have hp := cross_plucker w1 u1 n0 w2
      nlinarith [hp, mul_pos hw1u1 hc4s, mul_pos hww hc1s, hc3s]
    have hw2u2 : 0 ≤ cross w2 u2 := by
      have := cross_anticomm w2 u2
      linarith
    exact finish u1 w2 hu1w2 hc1 hc4
      (hAle u1 (by rw [cross_self]) hu.le)
      (hAle w2 hu1w2.le hw2u2)
      (hBge u1 hw1u1.le hu1w2.le)
      (hBge w2 hww.le (by rw [cross_self]))
      ng1 ng4

/-- If no axis of the combined axis list shows a projection gap, the hulls of
two strictly convex quadrilaterals cannot be disjoint. -/
theorem no_gap_not_disjoint {a b : List (Pt ℝ)} (ha : ConvexQuadL a)
    (hb : ConvexQuadL b)
    (hng : ∀ n ∈ axesOf a ++ axesOf b, hasGap n a b = false) :
    ¬ Disjoint (polyHull a) (polyHull b) := by
  intro hd
  have hane : a ≠ [] := by
    obtain ⟨p0, p1, p2, p3, rfl, -⟩ := ha
    simp
  have hbne : b ≠ [] := by
    obtain ⟨p0, p1, p2, p3, rfl, -⟩ := hb
    simp
  obtain ⟨n0, hsep⟩ := exists_sep_direction hd
  obtain ⟨u1, u2, v, hv, hu, hc1, hc2, hAu1, hAu2, hax1, hax2⟩ :=
    quad_cone_data a ha n0
  obtain ⟨m1, m2, w, hw, hm, hb1, hb2, hBm1, hBm2, hbx1, hbx2⟩ :=
    quad_cone_data b hb (-n0)
  have hww : 0 < cross (-m1) (-m2) := by
    rw [cross_neg_neg]
    exact hm
  have hc3 : 0 ≤ cross (-m1) n0 := by
    rw [cross_neg_left]
    have := hb1
    rw [cross_neg_right] at this
    linarith
  have hc4 : 0 ≤ cross n0 (-m2) := by
    rw [cross_neg_right]
    have := hb2
    rw [cross_neg_left] at this
    linarith
  have hBw1 : ∀ q ∈ b, dot (-m1) w ≤ dot (-m1) q := by
    intro q hq
    rw [dot_neg_left, dot_neg_left]
    have := hBm1 q hq
    linarith
  have hBw2 : ∀ q ∈ b, dot (-m2) w ≤ dot (-m2) q := by
    intro q hq
    rw [dot_neg_left, dot_neg_left]
    have := hBm2 q hq
    linarith
  have hax1' : u1 ∈ axesOf a ++ axesOf b ∨ -u1 ∈ axesOf a ++ axesOf b := by
    rcases hax1 with h | h
    · exact Or.inl (List.mem_append_left _ h)
    · exact Or.inr (List.mem_append_left _ h)
  have hax2' : u2 ∈ axesOf a ++ axesOf b ∨ -u2 ∈ axesOf a ++ axesOf b := by
    rcases hax2 with h | h
    · exact Or.inl (List.mem_append_left _ h)
    · exact Or.inr (List.mem_append_left _ h)
  have hbx1' : -m1 ∈ axesOf a ++ axesOf b ∨ -(-m1) ∈ axesOf a ++ axesOf b := by
    rcases hbx1 with h | h
    · refine Or.inr ?_
      rw [neg_neg]
      exact List.mem_append_right _ h
    · exact Or.inl (List.mem_append_right _ h)
  have hbx2' : -m2 ∈ axesOf a ++ axesOf b ∨ -(-m2) ∈ axesOf a ++ axesOf b := by
    rcases hbx2 with h | h
    · refine Or.inr ?_
      rw [neg_neg]
      exact List.mem_append_right _ h
    · exact Or.inl (List.mem_append_right _ h)
  exact core_contradiction a b v w u1 u2 (-m1) (-m2) n0 hv hw hu hww
    hAu1 hAu2 hBw1 hBw2 hc1 hc2 hc3 hc4 hsep
    (ng_fact hane hbne hng hax1') (ng_fact hane hbne hng hax2')
    (ng_fact hane hbne hng hbx1') (ng_fact hane hbne hng hbx2')

/-- C2.  For strictly convex quadrilaterals, `doPolygonsIntersect` returns
`false` exactly when some edge normal of either polygon is a separating axis
(its projection intervals are disjoint), and returns `true` exactly when the
two quadrilaterals geometrically overlap (their convex hulls share a point):
the separating-axis decision is exact. -/
theorem c2_sat_exact (a b : List (Pt ℝ)) (ha : ConvexQuadL a)
    (hb : ConvexQuadL b) :
    (doPolygonsIntersect a b = false ↔
      ∃ n ∈ axesOf a ++ axesOf b, SepAxis n a b) ∧
    (doPolygonsIntersect a b = true ↔
      (polyHull a ∩ polyHull b).Nonempty) := by
  have hane : a ≠ [] := by
    obtain ⟨p0, p1, p2, p3, rfl, -⟩ := ha
    simp
  have hbne : b ≠ [] := by
    obtain ⟨p0, p1, p2, p3, rfl, -⟩ := hb
    simp
  have hiff : ∀ n : Pt ℝ, hasGap n a b = true ↔ SepAxis n a b := by
    intro n
    obtain ⟨p0, arest, rfl⟩ : ∃ p0 arest, a = p0 :: arest := by
      cases a with
      | nil => exact absurd rfl hane
      | cons x xs => exact ⟨x, xs, rfl⟩
    obtain ⟨q0, brest, rfl⟩ : ∃ q0 brest, b = q0 :: brest := by
      cases b with
      | nil => exact absurd rfl hbne
      | cons x xs => exact ⟨x, xs, rfl⟩
    obtain ⟨mnA, mxA, heqA, -, -, -⟩ := projBounds_spec n p0 arest
    obtain ⟨mnB, mxB, heqB, -, -, -⟩ := projBounds_spec n q0 brest
    constructor
    · intro h
      unfold hasGap at h
      rw [heqA, heqB] at h
      simp only [Bool.or_eq_true, decide_eq_true_eq] at h
      exact ⟨mnA, mxA, mnB, mxB, heqA, heqB, h⟩
    · rintro ⟨mnA', mxA', mnB', mxB', hA, hB, hgap⟩
      rw [heqA] at hA
      rw [heqB] at hB
      simp only [Option.some.injEq, Prod.mk.injEq] at hA hB
      obtain ⟨rfl, rfl⟩ := hA
      obtain ⟨rfl, rfl⟩ := hB
      unfold hasGap
      rw [heqA, heqB]
      simp only [Bool.or_eq_true, decide_eq_true_eq]
      exact hgap
  constructor
  · rw [doPolygonsIntersect_eq_false_iff]
    constructor
    · rintro ⟨n, hn, hgap⟩
      exact ⟨n, hn, (hiff n).mp hgap⟩
    · rintro ⟨n, hn, hsx⟩
      exact ⟨n, hn, (hiff n).mpr hsx⟩
  · constructor
    · intro htrue
      by_contra hempty
      have hd : Disjoint (polyHull a) (polyHull b) := by
        rw [Set.disjoint_iff_inter_eq_empty]
        exact Set.not_nonempty_iff_eq_empty.mp hempty
      refine no_gap_not_disjoint ha hb ?_ hd
      intro n hn
      have hany : ((axesOf a ++ axesOf b).any fun n => hasGap n a b) = false := by
        rw [doPolygonsIntersect] at htrue
        rcases hx : (axesOf a ++ axesOf b).any fun n => hasGap n a b
        · rfl
        · rw [hx] at htrue
          simp at htrue
      have := List.any_eq_false.mp hany n hn
      simpa using this
    · intro hne
      by_contra hfalse
      have hfa : doPolygonsIntersect a b = false := by
        cases hdp : doPolygonsIntersect a b
        · rfl
        · exact absurd hdp hfalse
      obtain ⟨n, hn, hgap⟩ := (doPolygonsIntersect_eq_false_iff a b).mp hfa
      have hd := hasGap_disjoint hgap
      rw [Set.disjoint_iff_inter_eq_empty] at hd
      rw [hd] at hne
      exact Set.not_nonempty_empty hne

/-- C2 witness: the unit square and its translate by `(1/2, 1/2)` are strictly
convex quadrilaterals that share the point `(1/2, 1/2)`, and
`doPolygonsIntersect` reports the intersection. -/
theorem c2_sat_exact_witness :
    ConvexQuadL [((0 : ℝ), (0 : ℝ)), (1, 0), (1, 1), (0, 1)] ∧
    ConvexQuadL [((1 / 2 : ℝ), (1 / 2 : ℝ)), (3 / 2, 1 / 2), (3 / 2, 3 / 2),
      (1 / 2, 3 / 2)] ∧
    doPolygonsIntersect [((0 : ℝ), (0 : ℝ)), (1, 0), (1, 1), (0, 1)]
      [((1 / 2 : ℝ), (1 / 2 : ℝ)), (3 / 2, 1 / 2), (3 / 2, 3 / 2),
        (1 / 2, 3 / 2)] = true := by
  have ha : ConvexQuadL [((0 : ℝ), (0 : ℝ)), (1, 0), (1, 1), (0, 1)] :=
    ⟨(0, 0), (1, 0), (1, 1), (0, 1), rfl,
      Or.inl (by norm_num [ccwQuad, cross, Prod.mk_sub_mk])⟩
  have hb : ConvexQuadL [((1 / 2 : ℝ), (1 / 2 : ℝ)), (3 / 2, 1 / 2),
      (3 / 2, 3 / 2), (1 / 2, 3 / 2)] :=
    ⟨(1 / 2, 1 / 2), (3 / 2, 1 / 2), (3 / 2, 3 / 2), (1 / 2, 3 / 2), rfl,
      Or.inl (by norm_num [ccwQuad, cross, Prod.mk_sub_mk])⟩
  have h00 : ((0 : ℝ), (0 : ℝ)) ∈
      polyHull [((0 : ℝ), (0 : ℝ)), (1, 0), (1, 1), (0, 1)] :=
    subset_convexHull ℝ _ (by simp)
  have h11 : ((1 : ℝ), (1 : ℝ)) ∈
      polyHull [((0 : ℝ), (0 : ℝ)), (1, 0), (1, 1), (0, 1)] :=
    subset_convexHull ℝ _ (by simp)
  have hmid := (convex_convexHull ℝ
      {p : Pt ℝ | p ∈ [((0 : ℝ), (0 : ℝ)), (1, 0), (1, 1), (0, 1)]}) h00 h11
    (by norm_num : (0 : ℝ) ≤ 1 / 2) (by norm_num : (0 : ℝ) ≤ 1 / 2)
    (by norm_num)
  have heq : (1 / 2 : ℝ) • ((0 : ℝ), (0 : ℝ)) + (1 / 2 : ℝ) • ((1 : ℝ), (1 : ℝ)) =
      ((1 / 2 : ℝ), (1 / 2 : ℝ)) := by
    refine Prod.ext_iff.mpr ⟨?_, ?_⟩ <;>
      norm_num [Prod.smul_mk, Prod.mk_add_mk, smul_eq_mul]
  rw [heq] at hmid
  have hpt : ((1 / 2 : ℝ), (1 / 2 : ℝ)) ∈
      polyHull [((0 : ℝ), (0 : ℝ)), (1, 0), (1, 1), (0, 1)] ∩
        polyHull [((1 / 2 : ℝ), (1 / 2 : ℝ)), (3 / 2, 1 / 2), (3 / 2, 3 / 2),
          (1 / 2, 3 / 2)] :=
    ⟨hmid, subset_convexHull ℝ _ (by simp)⟩
  exact ⟨ha, hb, ((c2_sat_exact _ _ ha hb).2).mpr ⟨_, hpt⟩⟩

end SatExactness

end Longdomain
